import Mathlib

/-!
Verification of the spline-interpolation crate.

A shallow embedding, over the exact scalar type `ℚ`, of the crate's core:
the tridiagonal (Thomas) solver, and the Hermite, Catmull-Rom and natural
cubic spline constructors and evaluators.

Conventions of the embedding:
* Rust `Vec<V>` / slices become `List ℚ`.
* A Rust panic (out-of-range indexing, `.unwrap()` on an `Err`) is modelled
  by the `Option` layer: `none` means the call aborts.  Fallible results
  (`Result<T, E>`) become `Except E T`, so a public operation has type
  `Option (Except E T)`: `none` = panic, `some (.error e)` = returned `Err e`,
  `some (.ok v)` = returned `Ok v`.
* Rust `for` loops over a range of known length become structural recursion
  on the number of remaining iterations; the `while` loop of the standard
  library's `binary_search_by` gets a fuel argument that strictly exceeds the
  possible number of iterations (each iteration shrinks `right - left`, so
  `l.length + 1` always suffices).
* Division is the total division of `ℚ`.
-/

namespace SplineVerify

/-- Error type `HermiteSplineError<V>` from `lib.rs` (shared by all three spline types). -/
inductive SplineError where
  | PointOrderError : SplineError
  | OutOfLowerBound : ℚ → SplineError
  | OutOfUpperBound : ℚ → SplineError
  | InsufficientPointsError : ℕ → SplineError
  deriving DecidableEq, Repr

/-- Error type `MatrixValidationError` from `tridiagonal_matrix.rs`. -/
inductive MatrixValidationError where
  | MatrixShapeError : MatrixValidationError
  deriving DecidableEq, Repr

/-- The loop of Rust's `slice::binary_search_by` searching `l` on the window
`[left, right)`, comparing with `f`.  `fuel` bounds the number of iterations;
every iteration strictly shrinks `right - left`, so any fuel with
`right - left ≤ fuel` produces the loop's real result. -/
def bsLoop {α : Type} (f : α → Ordering) (l : List α) :
    ℕ → ℕ → ℕ → Except ℕ ℕ
  | 0, left, _ => .error left
  | fuel + 1, left, right =>
    if left < right then
      let mid := left + (right - left) / 2
      match l[mid]? with
      | none => .error left
      | some a =>
        match f a with
        | .lt => bsLoop f l fuel (mid + 1) right
        | .gt => bsLoop f l fuel left mid
        | .eq => .ok mid
    else .error left

/-- Three-way comparison on `ℚ`: the `partial_cmp(&x).unwrap()` of the
source's comparator, total on `ℚ`. -/
def ratCompare (a b : ℚ) : Ordering :=
  if a < b then .lt else if b < a then .gt else .eq

/-- Rust `slice::binary_search_by`: `.ok i` = found at `i`,
`.error i` = not present, insertion point `i`. -/
def binarySearchBy {α : Type} (f : α → Ordering) (l : List α) : Except ℕ ℕ :=
  bsLoop f l (l.length + 1) 0 l.length

/-- Struct `TridiagonalMatrix<V>` (field order as in the source). -/
structure TridiagonalMatrix where
  upper_diagonal : List ℚ
  diagonal : List ℚ
  lower_diagonal : List ℚ
  size : ℕ
  deriving DecidableEq, Repr

/-- Rust `TridiagonalMatrix::try_new`: shape validation. -/
def TridiagonalMatrix.try_new (upper_diagonal diagonal lower_diagonal : List ℚ) :
    Except MatrixValidationError TridiagonalMatrix :=
  if ¬(upper_diagonal.length = lower_diagonal.length ∧
      upper_diagonal.length + 1 = diagonal.length) then
    .error .MatrixShapeError
  else
    .ok ⟨upper_diagonal, diagonal, lower_diagonal, diagonal.length⟩

/-- Forward sweep of `thomas`: the body of `for ix in 1..matrix_size`, entered
with `ix = 1`; `fuel` is the number of remaining iterations
(`matrix_size - 1` at the initial call).  `x` is the solution vector being
updated in place, `scratch` the vector of modified upper coefficients. -/
def thomasFwd (n : ℕ) (lower_diagonal diagonal upper_diagonal : List ℚ) :
    ℕ → ℕ → List ℚ → List ℚ → Option (List ℚ × List ℚ)
  | 0, _, x, scratch => some (x, scratch)
  | fuel + 1, ix, x, scratch => do
    let scratch ←
      if ix < n - 1 then do
        let u ← upper_diagonal[ix]?
        let d ← diagonal[ix]?
        let lo ← lower_diagonal[ix - 1]?
        let s ← scratch[ix - 1]?
        pure (scratch ++ [u / (d - lo * s)])
      else pure scratch
    let xi ← x[ix]?
    let xp ← x[ix - 1]?
    let lo ← lower_diagonal[ix - 1]?
    let d ← diagonal[ix]?
    let s ← scratch[ix - 1]?
    thomasFwd n lower_diagonal diagonal upper_diagonal fuel (ix + 1)
      (x.set ix ((xi - lo * xp) / (d - lo * s))) scratch

/-- Backward sweep of `thomas`: `for ix in (0..matrix_size - 2).rev()`,
i.e. `ix = matrix_size - 3, …, 0`; structural recursion on `ix`. -/
def thomasBwd (scratch : List ℚ) : ℕ → List ℚ → Option (List ℚ)
  | 0, x => do
    let s ← scratch[0]?
    let xn ← x[0 + 1]?
    let xi ← x[0]?
    some (x.set 0 (xi - s * xn))
  | j + 1, x => do
    let s ← scratch[j + 1]?
    let xn ← x[j + 1 + 1]?
    let xi ← x[j + 1]?
    thomasBwd scratch j (x.set (j + 1) (xi - s * xn))

/-- Function `thomas` from `tridiagonal_matrix.rs`: shape check on `b`, then forward
sweep and (for `matrix_size ≥ 3`) backward sweep from `matrix_size - 3`. -/
def thomas (matrix_size : ℕ)
    (lower_diagonal diagonal upper_diagonal b : List ℚ) :
    Option (Except MatrixValidationError (List ℚ)) :=
  if b.length ≠ matrix_size then some (.error .MatrixShapeError)
  else
    (do
      let u0 ← upper_diagonal[0]?
      let d0 ← diagonal[0]?
      let scratch := [u0 / d0]
      let x0 ← b[0]?
      let x := b.set 0 (x0 / d0)
      let (x, scratch) ←
        thomasFwd matrix_size lower_diagonal diagonal upper_diagonal
          (matrix_size - 1) 1 x scratch
      if 2 < matrix_size then thomasBwd scratch (matrix_size - 3) x
      else some x :
      Option (List ℚ)).map Except.ok

/-- Rust `TridiagonalMatrix::try_solve`. -/
def TridiagonalMatrix.try_solve (m : TridiagonalMatrix) (b : List ℚ) :
    Option (Except MatrixValidationError (List ℚ)) :=
  thomas m.size m.lower_diagonal m.diagonal m.upper_diagonal b

/-! ## Hermite spline (`interpolation/hermite_spline.rs`) -/

/-- Struct `Point3<V>` of the Hermite spline: knot with explicit derivative. -/
structure HPoint where
  x : ℚ
  y : ℚ
  dydx : ℚ
  deriving DecidableEq, Repr

/-- Struct `HermiteSpline<V>` (the constant basis matrix is inlined in `try_value`). -/
structure HermiteSpline where
  points : List HPoint
  deriving DecidableEq, Repr

/-- The validation loop of `HermiteSpline::try_new`: push each point after
checking `point.x < temp`; `t` is the running `temp`. -/
def hermiteBuild (t : ℚ) : List (ℚ × ℚ × ℚ) → Except SplineError (List HPoint)
  | [] => .ok []
  | (x, y, dydx) :: rest =>
    if x < t then .error .PointOrderError
    else (hermiteBuild x rest).map (⟨x, y, dydx⟩ :: ·)

/-- Rust `HermiteSpline::try_new`.  Entry `raw_points[0]` is read before anything else,
so the empty slice aborts (`none`). -/
def HermiteSpline.try_new (raw_points : List (ℚ × ℚ × ℚ)) :
    Option (Except SplineError HermiteSpline) := do
  let p0 ← raw_points[0]?
  match hermiteBuild p0.1 raw_points with
  | .error e => some (.error e)
  | .ok pts => some (.ok ⟨pts⟩)

/-- Rust `HermiteSpline::try_value`.  The segment value is
`dᵀ · M · f` with `d = (δ³, δ², δ, 1)`,
`M = [[2,-2,1,1],[-3,3,-2,-1],[0,0,1,0],[1,0,0,0]]`,
`f = (y₀, y₁, dydx₀·h, dydx₁·h)`, written out as the four row dot products. -/
def HermiteSpline.try_value (s : HermiteSpline) (x : ℚ) :
    Option (Except SplineError ℚ) :=
  match binarySearchBy (fun point => ratCompare point.x x) s.points with
  | .ok pos => (s.points[pos]?).map (fun p => .ok p.y)
  | .error pos =>
    if pos = 0 then some (.error (.OutOfLowerBound x))
    else if s.points.length < pos then some (.error (.OutOfUpperBound x))
    else do
      let point ← s.points[pos - 1]?
      let next_point ← s.points[pos]?
      let h := next_point.x - point.x
      let delta := (x - point.x) / h
      let delta2 := delta * delta
      let delta3 := delta2 * delta
      some (.ok
        (delta3 * (2 * point.y + (-2) * next_point.y
            + point.dydx * h + next_point.dydx * h)
          + delta2 * ((-3) * point.y + 3 * next_point.y
            + (-2) * (point.dydx * h) + (-1) * (next_point.dydx * h))
          + delta * (point.dydx * h)
          + point.y))

/-! ## Catmull-Rom spline (`interpolation/catmull_rom_spline.rs`) -/

/-- Struct `Point2<V>`. -/
structure Point2 where
  x : ℚ
  y : ℚ
  deriving DecidableEq, Repr

/-- Struct `CatmullRomSpline<V>`. -/
structure CatmullRomSpline where
  points : List Point2
  deriving DecidableEq, Repr

/-- The validation loop of `CatmullRomSpline::try_new`. -/
def catmullBuild (t : ℚ) : List (ℚ × ℚ) → Except SplineError (List Point2)
  | [] => .ok []
  | (x, y) :: rest =>
    if x < t then .error .PointOrderError
    else (catmullBuild x rest).map (⟨x, y⟩ :: ·)

/-- Rust `CatmullRomSpline::try_new`. -/
def CatmullRomSpline.try_new (raw_points : List (ℚ × ℚ)) :
    Option (Except SplineError CatmullRomSpline) :=
  if raw_points.length < 3 then
    some (.error (.InsufficientPointsError raw_points.length))
  else do
    let p0 ← raw_points[0]?
    match catmullBuild p0.1 raw_points with
    | .error e => some (.error e)
    | .ok pts => some (.ok ⟨pts⟩)

/-- First-segment branch of `CatmullRomSpline::try_value` (`pos == 0` after
the decrement): `dᵀ · (M_first · (0, y₁, y₂, y₃))` with
`β = h / (h + next_h)`, rows of `M_first` as in the source. -/
def catmullFirst (point next_point next_next_point : Point2) (x : ℚ) : ℚ :=
  let h := next_point.x - point.x
  let delta := (x - point.x) / h
  let next_h := next_next_point.x - next_point.x
  let beta := h / (h + next_h)
  let r0 := (1 - beta) * point.y + (-1) * next_point.y + beta * next_next_point.y
  let r1 := (-1 + beta) * point.y + 1 * next_point.y + (-beta) * next_next_point.y
  let r2 := (-1) * point.y + 1 * next_point.y
  let r3 := 1 * point.y
  (delta * delta * delta) * r0 + (delta * delta) * r1 + delta * r2 + r3

/-- Last-segment branch of `CatmullRomSpline::try_value`
(`pos + 2 == len` after the decrement): `dᵀ · (M_last · (y₀, y₁, y₂, 0))`
with `prev_h = next_point.x - prev_point.x`, `α = h / (h + prev_h)`. -/
def catmullLast (prev_point point next_point : Point2) (x : ℚ) : ℚ :=
  let h := next_point.x - point.x
  let delta := (x - point.x) / h
  let prev_h := next_point.x - prev_point.x
  let alpha := h / (h + prev_h)
  let r0 := (-alpha) * prev_point.y + 1 * point.y + (-1 * alpha) * next_point.y
  let r1 := (2 * alpha) * prev_point.y + (-2) * point.y
    + (2 - 2 * alpha) * next_point.y
  let r2 := (-alpha) * prev_point.y + alpha * next_point.y
  let r3 := 1 * point.y
  (delta * delta * delta) * r0 + (delta * delta) * r1 + delta * r2 + r3

/-- Interior-segment branch of `CatmullRomSpline::try_value`:
`dᵀ · (M_interior · (y₀, y₁, y₂, y₃))` with
`prev_h = next_point.x - prev_point.x`, `α = h / (h + prev_h)`,
`next_h = next_next_point.x - next_point.x`, `β = h / (h + next_h)`. -/
def catmullInterior (prev_point point next_point next_next_point : Point2)
    (x : ℚ) : ℚ :=
  let h := next_point.x - point.x
  let delta := (x - point.x) / h
  let prev_h := next_point.x - prev_point.x
  let alpha := h / (h + prev_h)
  let next_h := next_next_point.x - next_point.x
  let beta := h / (h + next_h)
  let r0 := (-alpha) * prev_point.y + (2 - beta) * point.y
    + (-2 + alpha) * next_point.y + beta * next_next_point.y
  let r1 := (2 * alpha) * prev_point.y + (beta - 3) * point.y
    + (3 - 2 * alpha) * next_point.y + (-beta) * next_next_point.y
  let r2 := (-alpha) * prev_point.y + alpha * next_point.y
  let r3 := 1 * point.y
  (delta * delta * delta) * r0 + (delta * delta) * r1 + delta * r2 + r3

/-- Rust `CatmullRomSpline::try_value`.  The source decrements `pos` before
indexing; here the original `pos` is kept, so `point = points[pos-1]`,
`next_point = points[pos]`, and the branch guards `pos == 0` / `pos + 2 == len`
of the decremented position become `pos - 1 = 0` / `pos + 1 = len`. -/
def CatmullRomSpline.try_value (s : CatmullRomSpline) (x : ℚ) :
    Option (Except SplineError ℚ) :=
  match binarySearchBy (fun point => ratCompare point.x x) s.points with
  | .ok pos => (s.points[pos]?).map (fun p => .ok p.y)
  | .error pos =>
    if pos = 0 then some (.error (.OutOfLowerBound x))
    else if s.points.length < pos then some (.error (.OutOfUpperBound x))
    else do
      let point ← s.points[pos - 1]?
      let next_point ← s.points[pos]?
      if pos - 1 = 0 then do
        let next_next_point ← s.points[pos + 1]?
        some (.ok (catmullFirst point next_point next_next_point x))
      else if pos + 1 = s.points.length then do
        let prev_point ← s.points[pos - 2]?
        some (.ok (catmullLast prev_point point next_point x))
      else do
        let prev_point ← s.points[pos - 2]?
        let next_next_point ← s.points[pos + 1]?
        some (.ok (catmullInterior prev_point point next_point next_next_point x))

/-! ## Natural cubic spline (`natural_cubic_spline.rs`) -/

/-- Knot of a natural cubic spline: `nalgebra::Point3` with coordinates
`(x, y, z)`, `z` being the solved second derivative (`dydx` in the source's
variable name). -/
structure NPoint where
  x : ℚ
  y : ℚ
  z : ℚ
  deriving DecidableEq, Repr

/-- Struct `NaturalCubicSpline<V>`. -/
structure NaturalCubicSpline where
  points : List NPoint
  deriving DecidableEq, Repr

/-- The `x`-coordinate of `raw_points[i]` (helper for the index-driven loops of
`NaturalCubicSpline::try_new`; out-of-range indices are never used there). -/
def ptX (raw_points : List (ℚ × ℚ)) (i : ℕ) : ℚ := (raw_points.getD i (0, 0)).1

/-- The `y`-coordinate of `raw_points[i]`. -/
def ptY (raw_points : List (ℚ × ℚ)) (i : ℕ) : ℚ := (raw_points.getD i (0, 0)).2

/-- Segment width `h[i] = x[i+1] - x[i]`. -/
def nh (raw_points : List (ℚ × ℚ)) (i : ℕ) : ℚ :=
  ptX raw_points (i + 1) - ptX raw_points i

/-- The `du` vector built by the first loop of `NaturalCubicSpline::try_new`:
one push per `i` in `0..n-1` (`V::zero()` at `i = 0`, `h_next / 6` at interior
`i`; nothing at `i = n-1`), so entry `i` is `0` for `i = 0` and `h[i]/6`
otherwise. -/
def nUpper (raw_points : List (ℚ × ℚ)) : List ℚ :=
  List.ofFn fun i : Fin (raw_points.length - 1) =>
    if (i : ℕ) = 0 then 0 else nh raw_points i / 6

/-- The `d` vector of the same loop: `1` at `i = 0` and `i = n-1`,
`(h[i-1] + h[i]) / 3` at interior `i`. -/
def nDiag (raw_points : List (ℚ × ℚ)) : List ℚ :=
  List.ofFn fun i : Fin raw_points.length =>
    if (i : ℕ) = 0 then 1
    else if (i : ℕ) + 1 = raw_points.length then 1
    else (nh raw_points ((i : ℕ) - 1) + nh raw_points i) / 3

/-- The `dl` vector of the same loop: pushes `h/6 = h[i-1]/6` at interior
`i = 1..n-2` (landing at index `i-1`) and `V::zero()` at `i = n-1`
(landing at index `n-2`), so entry `j` is `h[j]/6` for `j < n-2` and `0`
at `j = n-2`. -/
def nLower (raw_points : List (ℚ × ℚ)) : List ℚ :=
  List.ofFn fun i : Fin (raw_points.length - 1) =>
    if (i : ℕ) + 1 = raw_points.length - 1 then 0 else nh raw_points i / 6

/-- The right-hand-side vector `b` of `NaturalCubicSpline::try_new`:
`0` at the two boundary rows, otherwise the difference of adjacent slopes. -/
def nB (raw_points : List (ℚ × ℚ)) : List ℚ :=
  List.ofFn fun i : Fin raw_points.length =>
    if (i : ℕ) = 0 ∨ (i : ℕ) + 1 = raw_points.length then 0
    else
      (ptY raw_points ((i : ℕ) + 1) - ptY raw_points i) / nh raw_points i
        - (ptY raw_points i - ptY raw_points ((i : ℕ) - 1))
          / nh raw_points ((i : ℕ) - 1)

/-- Rust `.unwrap()` on a `Result`: aborts (`none`) on `Err`. -/
def exceptUnwrap {ε α : Type} : Except ε α → Option α
  | .ok a => some a
  | .error _ => none

/-- The zip-and-validate loop at the end of `NaturalCubicSpline::try_new`. -/
def naturalBuild (t : ℚ) : List ((ℚ × ℚ) × ℚ) → Except SplineError (List NPoint)
  | [] => .ok []
  | ((x, y), dydx) :: rest =>
    if x < t then .error .PointOrderError
    else (naturalBuild x rest).map (⟨x, y, dydx⟩ :: ·)

/-- Rust `NaturalCubicSpline::try_new`: length check, build the tridiagonal
system, `.unwrap()` both the construction and the solve, then zip the solved
second derivatives back onto the points under the order check. -/
def NaturalCubicSpline.try_new (raw_points : List (ℚ × ℚ)) :
    Option (Except SplineError NaturalCubicSpline) :=
  if raw_points.length < 3 then
    some (.error (.InsufficientPointsError raw_points.length))
  else do
    let matrix ← exceptUnwrap
      (TridiagonalMatrix.try_new (nUpper raw_points) (nDiag raw_points)
        (nLower raw_points))
    let solved ← matrix.try_solve (nB raw_points)
    let derivatives ← exceptUnwrap solved
    let p0 ← raw_points[0]?
    match naturalBuild p0.1 (raw_points.zip derivatives) with
    | .error e => some (.error e)
    | .ok pts => some (.ok ⟨pts⟩)

/-- Rust `NaturalCubicSpline::try_value`. -/
def NaturalCubicSpline.try_value (s : NaturalCubicSpline) (x : ℚ) :
    Option (Except SplineError ℚ) :=
  match binarySearchBy (fun point => ratCompare point.x x) s.points with
  | .ok pos => (s.points[pos]?).map (fun p => .ok p.y)
  | .error pos =>
    if pos = 0 then some (.error (.OutOfLowerBound x))
    else if s.points.length < pos then some (.error (.OutOfUpperBound x))
    else do
      let point ← s.points[pos - 1]?
      let next_point ← s.points[pos]?
      let h := next_point.x - point.x
      let six : ℚ := 6
      some (.ok
        ((next_point.x - x) * (next_point.x - x) * (next_point.x - x)
            / six / h * point.z
          + (x - point.x) * (x - point.x) * (x - point.x)
            / six / h * next_point.z
          + (next_point.x - x) * (point.y / h - h / six * point.z)
          + (x - point.x) * (next_point.y / h - h / six * next_point.z)))

/-! ## Construct-then-evaluate helpers -/

/-- Construction followed by evaluation for the Hermite spline: the composite
a caller performs; an `Err` from construction is passed through. -/
def hermiteEval (raw_points : List (ℚ × ℚ × ℚ)) (x : ℚ) :
    Option (Except SplineError ℚ) := do
  match ← HermiteSpline.try_new raw_points with
  | .error e => some (.error e)
  | .ok s => s.try_value x

/-- Construction followed by evaluation for the Catmull-Rom spline. -/
def catmullEval (raw_points : List (ℚ × ℚ)) (x : ℚ) :
    Option (Except SplineError ℚ) := do
  match ← CatmullRomSpline.try_new raw_points with
  | .error e => some (.error e)
  | .ok s => s.try_value x

/-- Construction followed by evaluation for the natural cubic spline. -/
def naturalEval (raw_points : List (ℚ × ℚ)) (x : ℚ) :
    Option (Except SplineError ℚ) := do
  match ← NaturalCubicSpline.try_new raw_points with
  | .error e => some (.error e)
  | .ok s => s.try_value x

/-! ## Divisors used during evaluation

For each `try_value` the list of divisors of every division the call
performs, in source order, following exactly the control flow of the
corresponding `try_value` (a branch that aborts on an out-of-range index
contributes only the divisors of divisions executed before the abort). -/

/-- Divisors of `HermiteSpline::try_value` at query `x`: the sole division is
`(x - point.x) / h`. -/
def hermiteDivisors (s : HermiteSpline) (x : ℚ) : List ℚ :=
  match binarySearchBy (fun point => ratCompare point.x x) s.points with
  | .ok _ => []
  | .error pos =>
    if pos = 0 then []
    else if s.points.length < pos then []
    else
      match s.points[pos - 1]?, s.points[pos]? with
      | some point, some next_point => [next_point.x - point.x]
      | _, _ => []

/-- Divisors of `CatmullRomSpline::try_value` at query `x`: `h` for `delta`,
then `h + next_h` and/or `h + prev_h` for `beta` / `alpha` in the branch
taken. -/
def catmullDivisors (s : CatmullRomSpline) (x : ℚ) : List ℚ :=
  match binarySearchBy (fun point => ratCompare point.x x) s.points with
  | .ok _ => []
  | .error pos =>
    if pos = 0 then []
    else if s.points.length < pos then []
    else
      match s.points[pos - 1]?, s.points[pos]? with
      | some point, some next_point =>
        let h := next_point.x - point.x
        if pos - 1 = 0 then
          match s.points[pos + 1]? with
          | some next_next_point => [h, h + (next_next_point.x - next_point.x)]
          | none => [h]
        else if pos + 1 = s.points.length then
          match s.points[pos - 2]? with
          | some prev_point => [h, h + (next_point.x - prev_point.x)]
          | none => [h]
        else
          match s.points[pos - 2]?, s.points[pos + 1]? with
          | some prev_point, some next_next_point =>
            [h, h + (next_point.x - prev_point.x),
              h + (next_next_point.x - next_point.x)]
          | _, _ => [h]
      | _, _ => []

/-- Divisors of `NaturalCubicSpline::try_value` at query `x`, in the order the
eight divisions of the segment formula are performed (`six` and `h`
alternating). -/
def naturalDivisors (s : NaturalCubicSpline) (x : ℚ) : List ℚ :=
  match binarySearchBy (fun point => ratCompare point.x x) s.points with
  | .ok _ => []
  | .error pos =>
    if pos = 0 then []
    else if s.points.length < pos then []
    else
      match s.points[pos - 1]?, s.points[pos]? with
      | some point, some next_point =>
        let h := next_point.x - point.x
        [6, h, 6, h, h, 6, h, 6]
      | _, _ => []

/-! ## Closed forms of the Thomas sweeps

The recurrences the two loops of `thomas` compute, written as functions of
the row index; `thomas_eq_ofFn_tdZ` below proves that `thomas` returns
exactly these values.  All list accesses use `getD _ 0`; the equivalence
lemma supplies the length side conditions. -/

/-- Modified upper coefficient `c'[i]` of the forward sweep (`scratch[i]`). -/
def tdC (lower diag upper : List ℚ) : ℕ → ℚ
  | 0 => upper.getD 0 0 / diag.getD 0 0
  | i + 1 =>
    upper.getD (i + 1) 0
      / (diag.getD (i + 1) 0 - lower.getD i 0 * tdC lower diag upper i)

/-- Denominator of row `i` during the forward sweep. -/
def tdDen (lower diag upper : List ℚ) : ℕ → ℚ
  | 0 => diag.getD 0 0
  | i + 1 => diag.getD (i + 1) 0 - lower.getD i 0 * tdC lower diag upper i

/-- Normalized right-hand side `x[i]` after the forward sweep. -/
def tdW (lower diag upper b : List ℚ) : ℕ → ℚ
  | 0 => b.getD 0 0 / diag.getD 0 0
  | i + 1 =>
    (b.getD (i + 1) 0 - lower.getD i 0 * tdW lower diag upper b i)
      / (diag.getD (i + 1) 0 - lower.getD i 0 * tdC lower diag upper i)

/-- Final value `x[i]` after the backward sweep: the sweep runs only up to
index `matrix_size - 3`, so indices `≥ matrix_size - 2` keep their
forward-sweep value. -/
def tdZ (n : ℕ) (lower diag upper b : List ℚ) (i : ℕ) : ℚ :=
  if n - 2 ≤ i then tdW lower diag upper b i
  else
    tdW lower diag upper b i
      - tdC lower diag upper i * tdZ n lower diag upper b (i + 1)
termination_by n - i

/-- The `x`-coordinate of entry `i` of a Hermite raw-point list. -/
def ptX3 (raw_points : List (ℚ × ℚ × ℚ)) (i : ℕ) : ℚ :=
  (raw_points.getD i (0, 0, 0)).1

/-- The `y`-coordinate of entry `i` of a Hermite raw-point list. -/
def ptY3 (raw_points : List (ℚ × ℚ × ℚ)) (i : ℕ) : ℚ :=
  (raw_points.getD i (0, 0, 0)).2.1

/-! # Theorems -/

/-! ## Concrete constructions shared by several proofs -/

/-- Concrete run: a two-point Hermite construction succeeds. -/
theorem hermite_two_new :
    HermiteSpline.try_new [(0, 0, 1), (1, 1, 2)]
      = some (.ok ⟨[⟨0, 0, 1⟩, ⟨1, 1, 2⟩]⟩) := by
  norm_num [HermiteSpline.try_new, hermiteBuild, Except.map,
    -Prod.mk_zero_zero, -Prod.mk_one_one]

/-- Concrete run: a three-point Catmull-Rom construction succeeds. -/
theorem catmull_three_new :
    CatmullRomSpline.try_new [(0, 0), (1, 1), (2, 0)]
      = some (.ok ⟨[⟨0, 0⟩, ⟨1, 1⟩, ⟨2, 0⟩]⟩) := by
  norm_num [CatmullRomSpline.try_new, catmullBuild, Except.map,
    -Prod.mk_zero_zero, -Prod.mk_one_one]

set_option maxHeartbeats 800000 in
set_option maxRecDepth 4000 in
/-- Concrete run: a three-point natural cubic construction succeeds, with
solved second derivatives `[0, -3, 0]`. -/
theorem natural_three_new :
    NaturalCubicSpline.try_new [(0, 0), (1, 1), (2, 0)]
      = some (.ok ⟨[⟨0, 0, 0⟩, ⟨1, 1, -3⟩, ⟨2, 0, 0⟩]⟩) := by
  have hm : TridiagonalMatrix.try_new (nUpper [(0, 0), (1, 1), (2, 0)])
      (nDiag [(0, 0), (1, 1), (2, 0)]) (nLower [(0, 0), (1, 1), (2, 0)])
      = .ok ⟨[0, 1/6], [1, 2/3, 1], [1/6, 0], 3⟩ := by
    norm_num [nUpper, nDiag, nLower, nh, ptX, List.ofFn_succ,
      TridiagonalMatrix.try_new, -Prod.mk_zero_zero, -Prod.mk_one_one]
  have hs : TridiagonalMatrix.try_solve ⟨[0, 1/6], [1, 2/3, 1], [1/6, 0], 3⟩
      (nB [(0, 0), (1, 1), (2, 0)]) = some (.ok [0, -3, 0]) := by
    have hb : nB [(0, 0), (1, 1), (2, 0)] = [0, -2, 0] := by
      norm_num [nB, nh, ptX, ptY, List.ofFn_succ,
        -Prod.mk_zero_zero, -Prod.mk_one_one]
    rw [hb]
    norm_num [TridiagonalMatrix.try_solve, thomas, thomasFwd, thomasBwd]
  norm_num [NaturalCubicSpline.try_new, hm, hs, exceptUnwrap, naturalBuild,
    Except.map, -Prod.mk_zero_zero, -Prod.mk_one_one]

/-! ## Claim theorems (part 1: concrete behaviours) -/

/-- C1: the claim "`try_solve` satisfies `A·x = b` for every accepted,
diagonally dominant system" fails on the code.  On the strictly diagonally
dominant system `lower = upper = [1,1]`, `diag = [3,3,3]`, `b = [1,1,1]`
(accepted by `try_new`), the solver returns `[1/4, 1/4, 2/7]`, whose last row
gives `1·x₁ + 3·x₂ = 31/28 ≠ 1 = b₂`: the backward sweep starts at `n-3`
instead of `n-2` (the source's own comment says "loop from X - 2 to 0
inclusive"), skipping the correction of `x[n-2]`. -/
theorem thomas_skips_last_backsubstitution :
    TridiagonalMatrix.try_new [1, 1] [3, 3, 3] [1, 1]
        = .ok ⟨[1, 1], [3, 3, 3], [1, 1], 3⟩
      ∧ TridiagonalMatrix.try_solve ⟨[1, 1], [3, 3, 3], [1, 1], 3⟩ [1, 1, 1]
        = some (.ok [1/4, 1/4, 2/7])
      ∧ (1 : ℚ) * (1/4) + 3 * (2/7) ≠ 1 := by
  refine ⟨by norm_num [TridiagonalMatrix.try_new],
    by norm_num [TridiagonalMatrix.try_solve, thomas, thomasFwd, thomasBwd],
    by norm_num⟩

set_option maxHeartbeats 800000 in
set_option maxRecDepth 4000 in
/-- C2: the claim "a query strictly above the maximum knot returns
`OutOfUpperBound`" fails on the code: for such a query the binary search
yields the insertion point `len`, which passes the `pos > len` guard and then
indexes `points[len]` out of range, aborting (`none`).  Queries strictly
below the minimum knot do return `OutOfLowerBound` as claimed.  Shown on a
two-point Hermite spline, a three-point Catmull-Rom spline and a three-point
natural cubic spline. -/
theorem evaluate_above_max_aborts :
    hermiteEval [(0, 0, 1), (1, 1, 2)] 2 = none
      ∧ hermiteEval [(0, 0, 1), (1, 1, 2)] (-1)
        = some (.error (.OutOfLowerBound (-1)))
      ∧ catmullEval [(0, 0), (1, 1), (2, 0)] 3 = none
      ∧ catmullEval [(0, 0), (1, 1), (2, 0)] (-1)
        = some (.error (.OutOfLowerBound (-1)))
      ∧ naturalEval [(0, 0), (1, 1), (2, 0)] 3 = none
      ∧ naturalEval [(0, 0), (1, 1), (2, 0)] (-1)
        = some (.error (.OutOfLowerBound (-1))) := by
  refine ⟨?_, ?_, ?_, ?_, ?_, ?_⟩ <;>
    norm_num [hermiteEval, catmullEval, naturalEval, hermite_two_new,
      catmull_three_new, natural_three_new, HermiteSpline.try_value,
      CatmullRomSpline.try_value, NaturalCubicSpline.try_value,
      binarySearchBy, bsLoop, ratCompare,
      -Prod.mk_zero_zero, -Prod.mk_one_one]

/-- C6: the claim "every public operation returns an explicit `Ok`/`Err` and
never aborts, including on an empty point slice" fails on the code:
`HermiteSpline::try_new` reads `raw_points[0]` before any check, so the empty
slice aborts with an out-of-range index (the other two constructors do
return an explicit error on the empty slice). -/
theorem hermite_try_new_empty_aborts :
    HermiteSpline.try_new [] = none
      ∧ CatmullRomSpline.try_new []
        = some (.error (.InsufficientPointsError 0))
      ∧ NaturalCubicSpline.try_new []
        = some (.error (.InsufficientPointsError 0)) := by
  refine ⟨rfl, by norm_num [CatmullRomSpline.try_new],
    by norm_num [NaturalCubicSpline.try_new]⟩

/-- C10: for the 1×1 system, `TridiagonalMatrix::try_new` accepts the shape
(`len(upper) = len(lower) = 0`, `len(diag) = 1`), but `try_solve` on a
length-1 right-hand side immediately indexes `upper_diagonal[0]` on the empty
upper diagonal and aborts, instead of returning `[b₀ / diag₀]` or a
`ShapeError`. -/
theorem one_by_one_solve_aborts (d b : ℚ) :
    TridiagonalMatrix.try_new [] [d] [] = .ok ⟨[], [d], [], 1⟩
      ∧ TridiagonalMatrix.try_solve ⟨[], [d], [], 1⟩ [b] = none := by
  exact ⟨rfl, rfl⟩

/-- Master characterization of `bsLoop` on a list monotone under key `kf`. -/
theorem bsLoop_spec {α : Type} (kf : α → ℚ) (q : ℚ) (l : List α)
    (hmono : ∀ (i j : ℕ) a c, i < j → l[i]? = some a → l[j]? = some c →
      kf a ≤ kf c) :
    ∀ fuel left right, left ≤ right → right ≤ l.length →
      right - left ≤ fuel →
      (∀ (j : ℕ) a, j < left → l[j]? = some a → kf a < q) →
      (∀ (j : ℕ) a, right ≤ j → l[j]? = some a → q < kf a) →
      (∃ pos a,
          bsLoop (fun p => ratCompare (kf p) q) l fuel left right = .ok pos
            ∧ l[pos]? = some a ∧ kf a = q)
        ∨ (∃ pos,
            bsLoop (fun p => ratCompare (kf p) q) l fuel left right
                = .error pos
              ∧ pos ≤ l.length
              ∧ (∀ (j : ℕ) a, j < pos → l[j]? = some a → kf a < q)
              ∧ (∀ (j : ℕ) a, pos ≤ j → l[j]? = some a → q < kf a)) := by
  intro fuel
  induction fuel with
  | zero =>
    intro left right hlr hrl hfuel hlo hhi
    right
    exact ⟨left, rfl, by omega, hlo, fun j a hj ha => hhi j a (by omega) ha⟩
  | succ fuel ih =>
    intro left right hlr hrl hfuel hlo hhi
    by_cases hlt : left < right
    · have hmidlt : left + (right - left) / 2 < right := by omega
      have hmidlen : left + (right - left) / 2 < l.length :=
        lt_of_lt_of_le hmidlt hrl
      obtain ⟨a, ha⟩ : ∃ a, l[left + (right - left) / 2]? = some a :=
        ⟨_, List.getElem?_eq_getElem hmidlen⟩
      rcases lt_trichotomy (kf a) q with hc | hc | hc
      · have hr : ratCompare (kf a) q = .lt := by simp [ratCompare, hc]
        have hstep : bsLoop (fun p => ratCompare (kf p) q) l (fuel + 1)
            left right = bsLoop (fun p => ratCompare (kf p) q) l fuel
              (left + (right - left) / 2 + 1) right := by
          rw [bsLoop]
          simp only [if_pos hlt, ha, hr]
        rw [hstep]
        refine ih (left + (right - left) / 2 + 1) right (by omega) hrl
          (by omega) ?_ hhi
        intro j c hj hc2
        rcases lt_or_eq_of_le (Nat.lt_succ_iff.mp hj) with hj' | hj'
        · exact lt_of_le_of_lt (hmono j _ c a hj' hc2 ha) hc
        · rw [hj'] at hc2; rw [hc2] at ha; cases ha; exact hc
      · have hr : ratCompare (kf a) q = .eq := by
          simp [ratCompare, hc, lt_irrefl]
        have hstep : bsLoop (fun p => ratCompare (kf p) q) l (fuel + 1)
            left right = .ok (left + (right - left) / 2) := by
          rw [bsLoop]
          simp only [if_pos hlt, ha, hr]
        exact Or.inl ⟨_, a, hstep, ha, hc⟩
      · have hr : ratCompare (kf a) q = .gt := by
          simp [ratCompare, hc, not_lt_of_gt hc, asymm hc]
        have hstep : bsLoop (fun p => ratCompare (kf p) q) l (fuel + 1)
            left right = bsLoop (fun p => ratCompare (kf p) q) l fuel
              left (left + (right - left) / 2) := by
          rw [bsLoop]
          simp only [if_pos hlt, ha, hr]
        rw [hstep]
        refine ih left (left + (right - left) / 2) (by omega)
          (le_of_lt hmidlen) (by omega) hlo ?_
        intro j c hj hc2
        rcases lt_or_eq_of_le hj with hj' | hj'
        · exact lt_of_lt_of_le hc (hmono _ j a c hj' ha hc2)
        · rw [← hj'] at hc2; rw [hc2] at ha; cases ha; exact hc
    · have hstep : bsLoop (fun p => ratCompare (kf p) q) l (fuel + 1)
          left right = .error left := by
        rw [bsLoop]
        simp only [if_neg hlt]
      rw [hstep]
      right
      exact ⟨left, rfl, by omega, hlo, fun j a hj ha => hhi j a (by omega) ha⟩

/-- Characterization of `binarySearchBy` with key `kf` on a monotone list. -/
theorem binarySearchBy_spec {α : Type} (kf : α → ℚ) (q : ℚ) (l : List α)
    (hmono : ∀ (i j : ℕ) a c, i < j → l[i]? = some a → l[j]? = some c →
      kf a ≤ kf c) :
    (∃ pos a, binarySearchBy (fun p => ratCompare (kf p) q) l = .ok pos
        ∧ l[pos]? = some a ∧ kf a = q)
      ∨ (∃ pos, binarySearchBy (fun p => ratCompare (kf p) q) l = .error pos
          ∧ pos ≤ l.length
          ∧ (∀ (j : ℕ) a, j < pos → l[j]? = some a → kf a < q)
          ∧ (∀ (j : ℕ) a, pos ≤ j → l[j]? = some a → q < kf a)) := by
  refine bsLoop_spec kf q l hmono (l.length + 1) 0 l.length (Nat.zero_le _)
    le_rfl (by omega) (fun j a hj _ => absurd hj (Nat.not_lt_zero j)) ?_
  intro j a hj ha
  rw [List.getElem?_eq_none hj] at ha
  cases ha

/-- On a strictly increasing list the search for the key of entry `i`
finds exactly `i`. -/
theorem binarySearchBy_found {α : Type} (kf : α → ℚ) (l : List α) (i : ℕ)
    (a : α)
    (hstrict : ∀ (i j : ℕ) a c, i < j → l[i]? = some a → l[j]? = some c →
      kf a < kf c)
    (ha : l[i]? = some a) :
    binarySearchBy (fun p => ratCompare (kf p) (kf a)) l = .ok i := by
  have hmono : ∀ (i j : ℕ) a c, i < j → l[i]? = some a → l[j]? = some c →
      kf a ≤ kf c := fun i j a c h h1 h2 => le_of_lt (hstrict i j a c h h1 h2)
  rcases binarySearchBy_spec kf (kf a) l hmono with
    ⟨pos, c, heq, hc, hkc⟩ | ⟨pos, heq, _, hlo, hhi⟩
  · rcases lt_trichotomy pos i with h | h | h
    · exact absurd (hstrict pos i c a h hc ha) (by rw [hkc]; exact lt_irrefl _)
    · rw [← h]; exact heq
    · exact absurd (hstrict i pos a c h ha hc) (by rw [hkc]; exact lt_irrefl _)
  · rcases lt_or_ge i pos with h | h
    · exact absurd (hlo i a h ha) (lt_irrefl _)
    · exact absurd (hhi i a h ha) (lt_irrefl _)

/-- Outcome of the Hermite validation loop: with running bound `t` it succeeds
exactly when the `x`-coordinates continue a `≤`-chain from `t`, producing the
mapped points, and otherwise reports `PointOrderError`. -/
theorem hermiteBuild_spec (raw : List (ℚ × ℚ × ℚ)) : ∀ t : ℚ,
    (List.Chain (· ≤ ·) t (raw.map (·.1))
      ∧ hermiteBuild t raw = .ok (raw.map fun p => ⟨p.1, p.2.1, p.2.2⟩))
    ∨ (¬ List.Chain (· ≤ ·) t (raw.map (·.1))
      ∧ hermiteBuild t raw = .error .PointOrderError) := by
  induction raw with
  | nil => exact fun t => Or.inl ⟨List.Chain.nil, rfl⟩
  | cons p rest ih =>
    intro t
    obtain ⟨x, y, d⟩ := p
    by_cases hx : x < t
    · right
      refine ⟨?_, by simp [hermiteBuild, hx]⟩
      rw [List.map_cons, List.chain_cons]
      rintro ⟨h1, -⟩
      exact absurd h1 (not_le.mpr hx)
    · rcases ih x with ⟨hch, heq⟩ | ⟨hch, heq⟩
      · left
        refine ⟨?_, by simp [hermiteBuild, hx, heq, Except.map]⟩
        rw [List.map_cons, List.chain_cons]
        exact ⟨not_lt.mp hx, hch⟩
      · right
        refine ⟨?_, by simp [hermiteBuild, hx, heq, Except.map]⟩
        rw [List.map_cons, List.chain_cons]
        rintro ⟨-, h2⟩
        exact hch h2

/-- Outcome of the Catmull-Rom validation loop (same shape as
`hermiteBuild_spec`). -/
theorem catmullBuild_spec (raw : List (ℚ × ℚ)) : ∀ t : ℚ,
    (List.Chain (· ≤ ·) t (raw.map (·.1))
      ∧ catmullBuild t raw = .ok (raw.map fun p => ⟨p.1, p.2⟩))
    ∨ (¬ List.Chain (· ≤ ·) t (raw.map (·.1))
      ∧ catmullBuild t raw = .error .PointOrderError) := by
  induction raw with
  | nil => exact fun t => Or.inl ⟨List.Chain.nil, rfl⟩
  | cons p rest ih =>
    intro t
    obtain ⟨x, y⟩ := p
    by_cases hx : x < t
    · right
      refine ⟨?_, by simp [catmullBuild, hx]⟩
      rw [List.map_cons, List.chain_cons]
      rintro ⟨h1, -⟩
      exact absurd h1 (not_le.mpr hx)
    · rcases ih x with ⟨hch, heq⟩ | ⟨hch, heq⟩
      · left
        refine ⟨?_, by simp [catmullBuild, hx, heq, Except.map]⟩
        rw [List.map_cons, List.chain_cons]
        exact ⟨not_lt.mp hx, hch⟩
      · right
        refine ⟨?_, by simp [catmullBuild, hx, heq, Except.map]⟩
        rw [List.map_cons, List.chain_cons]
        rintro ⟨-, h2⟩
        exact hch h2

/-- Outcome of the natural-cubic zip-and-validate loop (same shape as
`hermiteBuild_spec`; the list already carries the solved derivatives). -/
theorem naturalBuild_spec (raw : List ((ℚ × ℚ) × ℚ)) : ∀ t : ℚ,
    (List.Chain (· ≤ ·) t (raw.map (·.1.1))
      ∧ naturalBuild t raw = .ok (raw.map fun p => ⟨p.1.1, p.1.2, p.2⟩))
    ∨ (¬ List.Chain (· ≤ ·) t (raw.map (·.1.1))
      ∧ naturalBuild t raw = .error .PointOrderError) := by
  induction raw with
  | nil => exact fun t => Or.inl ⟨List.Chain.nil, rfl⟩
  | cons p rest ih =>
    intro t
    obtain ⟨⟨x, y⟩, d⟩ := p
    by_cases hx : x < t
    · right
      refine ⟨?_, by simp [naturalBuild, hx]⟩
      rw [List.map_cons, List.chain_cons]
      rintro ⟨h1, -⟩
      exact absurd h1 (not_le.mpr hx)
    · rcases ih x with ⟨hch, heq⟩ | ⟨hch, heq⟩
      · left
        refine ⟨?_, by simp [naturalBuild, hx, heq, Except.map]⟩
        rw [List.map_cons, List.chain_cons]
        exact ⟨not_lt.mp hx, hch⟩
      · right
        refine ⟨?_, by simp [naturalBuild, hx, heq, Except.map]⟩
        rw [List.map_cons, List.chain_cons]
        rintro ⟨-, h2⟩
        exact hch h2

/-- Bridge: in-range `getElem?` returns the `getD` value. -/
theorem getElem?_eq_some_getD {α : Type} (l : List α) (d : α) (i : ℕ)
    (h : i < l.length) : l[i]? = some (l.getD i d) := by
  rw [List.getD_eq_getElem?_getD, List.getElem?_eq_getElem h]
  rfl

/-- A `≤`-chain starting at the head key is the same as adjacent-entry
monotonicity of the keys. -/
theorem chain_map_iff_adjacent {α : Type} (key : α → ℚ) (raw : List α)
    (p0 : α) (h0 : raw[0]? = some p0) :
    List.Chain (· ≤ ·) (key p0) (raw.map key) ↔
      ∀ (i : ℕ) a c, raw[i]? = some a → raw[i+1]? = some c →
        key a ≤ key c := by
  rw [List.chain_iff_get]
  constructor
  · rintro ⟨-, h2⟩ i a c ha hc
    have hci : i + 1 < raw.length := (List.getElem?_eq_some_iff.mp hc).1
    have h3 := h2 i (by simp only [List.length_map]; omega)
    simp only [List.get_eq_getElem, List.getElem_map] at h3
    have ea : raw[i]? = some (raw.get ⟨i, by omega⟩) :=
      List.getElem?_eq_getElem (by omega)
    have ec : raw[i + 1]? = some (raw.get ⟨i + 1, hci⟩) :=
      List.getElem?_eq_getElem hci
    rw [ha] at ea
    rw [hc] at ec
    obtain rfl := Option.some.inj ea
    obtain rfl := Option.some.inj ec
    exact h3
  · intro h
    refine ⟨?_, ?_⟩
    · intro hlen
      simp only [List.get_eq_getElem, List.getElem_map]
      have e0 : raw[0]? = some (raw.get ⟨0, by simpa using hlen⟩) :=
        List.getElem?_eq_getElem (by simpa using hlen)
      rw [h0] at e0
      exact le_of_eq (congrArg key (Option.some.inj e0))
    · intro i hlen
      simp only [List.get_eq_getElem, List.getElem_map]
      have hi1 : i + 1 < raw.length := by
        simp only [List.length_map] at hlen
        omega
      exact h i _ _ (List.getElem?_eq_getElem (by omega))
        (List.getElem?_eq_getElem hi1)

/-- Adjacent-entry monotonicity of keys extends to all index pairs. -/
theorem mono_of_adjacent {α : Type} (key : α → ℚ) (l : List α)
    (hadj : ∀ (i : ℕ) a c, l[i]? = some a → l[i+1]? = some c →
      key a ≤ key c) :
    ∀ (i j : ℕ) a c, i < j → l[i]? = some a → l[j]? = some c →
      key a ≤ key c := by
  intro i j a c hij ha hc
  induction j generalizing c with
  | zero => omega
  | succ k ih =>
    have hk1 : k + 1 < l.length := (List.getElem?_eq_some_iff.mp hc).1
    have hb : l[k]? = some (l.get ⟨k, by omega⟩) :=
      List.getElem?_eq_getElem (by omega)
    rcases Nat.lt_succ_iff_lt_or_eq.mp hij with h | h
    · exact le_trans (ih _ h hb) (hadj k _ c hb hc)
    · subst h
      exact hadj _ a c ha hc

/-- Adjacent-entry strict monotonicity of keys extends to all index pairs. -/
theorem strict_mono_of_adjacent {α : Type} (key : α → ℚ) (l : List α)
    (hadj : ∀ (i : ℕ) a c, l[i]? = some a → l[i+1]? = some c →
      key a < key c) :
    ∀ (i j : ℕ) a c, i < j → l[i]? = some a → l[j]? = some c →
      key a < key c := by
  intro i j a c hij ha hc
  induction j generalizing c with
  | zero => omega
  | succ k ih =>
    have hk1 : k + 1 < l.length := (List.getElem?_eq_some_iff.mp hc).1
    have hb : l[k]? = some (l.get ⟨k, by omega⟩) :=
      List.getElem?_eq_getElem (by omega)
    rcases Nat.lt_succ_iff_lt_or_eq.mp hij with h | h
    · exact lt_trans (ih _ h hb) (hadj k _ c hb hc)
    · subst h
      exact hadj _ a c ha hc

/-- Outcome of `HermiteSpline::try_new` on a nonempty input: success with the
mapped points iff the `x`-chain condition holds, `PointOrderError`
otherwise. -/
theorem hermite_try_new_spec (raw : List (ℚ × ℚ × ℚ)) (p0 : ℚ × ℚ × ℚ)
    (h0 : raw[0]? = some p0) :
    (List.Chain (· ≤ ·) p0.1 (raw.map (·.1)) →
      HermiteSpline.try_new raw
        = some (.ok ⟨raw.map fun p => ⟨p.1, p.2.1, p.2.2⟩⟩))
    ∧ (¬ List.Chain (· ≤ ·) p0.1 (raw.map (·.1)) →
      HermiteSpline.try_new raw = some (.error .PointOrderError)) := by
  rcases hermiteBuild_spec raw p0.1 with ⟨hc, heq⟩ | ⟨hc, heq⟩
  · exact ⟨fun _ => by simp [HermiteSpline.try_new, h0, heq],
      fun h => absurd hc h⟩
  · exact ⟨fun h => absurd h hc,
      fun _ => by simp [HermiteSpline.try_new, h0, heq]⟩

/-- Outcome of `CatmullRomSpline::try_new` on an input of length at least 3. -/
theorem catmull_try_new_spec (raw : List (ℚ × ℚ)) (p0 : ℚ × ℚ)
    (h0 : raw[0]? = some p0) (h3 : 3 ≤ raw.length) :
    (List.Chain (· ≤ ·) p0.1 (raw.map (·.1)) →
      CatmullRomSpline.try_new raw
        = some (.ok ⟨raw.map fun p => ⟨p.1, p.2⟩⟩))
    ∧ (¬ List.Chain (· ≤ ·) p0.1 (raw.map (·.1)) →
      CatmullRomSpline.try_new raw = some (.error .PointOrderError)) := by
  have hlen : ¬ raw.length < 3 := by omega
  rcases catmullBuild_spec raw p0.1 with ⟨hc, heq⟩ | ⟨hc, heq⟩
  · exact ⟨fun _ => by simp [CatmullRomSpline.try_new, hlen, h0, heq],
      fun h => absurd hc h⟩
  · exact ⟨fun h => absurd h hc,
      fun _ => by simp [CatmullRomSpline.try_new, hlen, h0, heq]⟩

/-- Invariant of the forward sweep: entered at row `ix` with
`scratch = [c'₀, …]` and `x` holding normalized values below `ix` and raw
`b`-values from `ix` on, it terminates with `scratch = tdC` and `x = tdW`
everywhere. -/
theorem thomasFwd_spec (n : ℕ) (lower diag upper b : List ℚ)
    (hl : lower.length = n - 1) (hd : diag.length = n)
    (hu : upper.length = n - 1) :
    ∀ (fuel ix : ℕ) (x scratch : List ℚ),
      ix + fuel = n → 1 ≤ ix →
      x.length = n →
      scratch.length = min ix (n - 1) →
      (∀ j, j < scratch.length → scratch.getD j 0 = tdC lower diag upper j) →
      (∀ j, j < n →
        x.getD j 0 = if j < ix then tdW lower diag upper b j
          else b.getD j 0) →
      ∃ x' scratch',
        thomasFwd n lower diag upper fuel ix x scratch = some (x', scratch')
          ∧ x'.length = n ∧ scratch'.length = n - 1
          ∧ (∀ j, j < n - 1 → scratch'.getD j 0 = tdC lower diag upper j)
          ∧ (∀ j, j < n → x'.getD j 0 = tdW lower diag upper b j) := by
  intro fuel
  induction fuel with
  | zero =>
    intro ix x scratch hixf h1 hx hslen hsv hxv
    have hixn : ix = n := by omega
    subst hixn
    refine ⟨x, scratch, rfl, hx, by omega, ?_, ?_⟩
    · intro j hj
      apply hsv
      omega
    · intro j hj
      have := hxv j hj
      rwa [if_pos hj] at this
  | succ fuel ih =>
    intro ix x scratch hixf h1 hx hslen hsv hxv
    have hixlt : ix < n := by omega
    obtain ⟨k, hk⟩ : ∃ k, ix = k + 1 := ⟨ix - 1, by omega⟩
    have ed : diag[ix]? = some (diag.getD ix 0) :=
      getElem?_eq_some_getD _ _ _ (by omega)
    have el : lower[ix - 1]? = some (lower.getD (ix - 1) 0) :=
      getElem?_eq_some_getD _ _ _ (by omega)
    have exi : x[ix]? = some (b.getD ix 0) := by
      rw [getElem?_eq_some_getD x 0 ix (by omega), hxv ix hixlt,
        if_neg (lt_irrefl ix)]
    have exp : x[ix - 1]? = some (tdW lower diag upper b (ix - 1)) := by
      rw [getElem?_eq_some_getD x 0 (ix - 1) (by omega), hxv (ix - 1) (by omega),
        if_pos (by omega)]
    have es : scratch[ix - 1]? = some (tdC lower diag upper (ix - 1)) := by
      rw [getElem?_eq_some_getD scratch 0 (ix - 1) (by omega),
        hsv (ix - 1) (by omega)]
    -- the value written into `x`
    have hwval :
        (b.getD ix 0 - lower.getD (ix - 1) 0 * tdW lower diag upper b (ix - 1))
            / (diag.getD ix 0
              - lower.getD (ix - 1) 0 * tdC lower diag upper (ix - 1))
          = tdW lower diag upper b ix := by
      subst hk
      simp only [Nat.add_sub_cancel, tdW]
    by_cases hcase : ix < n - 1
    · -- a `scratch` push happens
      have eu : upper[ix]? = some (upper.getD ix 0) :=
        getElem?_eq_some_getD _ _ _ (by omega)
      have hcval :
          upper.getD ix 0
              / (diag.getD ix 0
                - lower.getD (ix - 1) 0 * tdC lower diag upper (ix - 1))
            = tdC lower diag upper ix := by
        subst hk
        simp only [Nat.add_sub_cancel, tdC]
      have hs1len : (scratch ++ [tdC lower diag upper ix]).length
          = min (ix + 1) (n - 1) := by
        simp only [List.length_append, List.length_singleton, hslen]
        omega
      have hs1v : ∀ j, j < (scratch ++ [tdC lower diag upper ix]).length →
          (scratch ++ [tdC lower diag upper ix]).getD j 0
            = tdC lower diag upper j := by
        intro j hj
        rw [List.getD_eq_getElem?_getD]
        rcases lt_or_ge j scratch.length with hjs | hjs
        · rw [List.getElem?_append_left hjs, ← List.getD_eq_getElem?_getD]
          exact hsv j hjs
        · have hj' : j = scratch.length := by
            simp only [List.length_append, List.length_singleton] at hj
            omega
          subst hj'
          rw [List.getElem?_concat_length, Option.getD_some]
          have : scratch.length = ix := by omega
          rw [this]
      have es1 : (scratch ++ [tdC lower diag upper ix])[ix - 1]?
          = some (tdC lower diag upper (ix - 1)) := by
        rw [List.getElem?_append_left (by omega), es]
      simp only [thomasFwd, if_pos hcase, eu, ed, el, es, Option.bind_eq_bind,
        Option.some_bind, Option.pure_def, hcval, exi, exp, es1]
      rw [hwval]
      refine ih (ix + 1) (x.set ix (tdW lower diag upper b ix))
        (scratch ++ [tdC lower diag upper ix]) (by omega) (by omega)
        (by simp [hx]) hs1len hs1v ?_
      intro j hj
      rw [List.getD_eq_getElem?_getD]
      rcases eq_or_ne j ix with hje | hje
      · subst hje
        rw [List.getElem?_set_self (by omega), Option.getD_some, if_pos (by omega)]
      · rw [List.getElem?_set_ne (Ne.symm hje), ← List.getD_eq_getElem?_getD,
          hxv j hj]
        rcases lt_or_ge j ix with hjlt | hjge
        · rw [if_pos hjlt, if_pos (by omega)]
        · rw [if_neg (by omega), if_neg (by omega)]
    · -- no push: `ix = n - 1`
      simp only [thomasFwd, if_neg hcase, ed, el, es, Option.bind_eq_bind,
        Option.some_bind, Option.pure_def, exi, exp]
      rw [hwval]
      refine ih (ix + 1) (x.set ix (tdW lower diag upper b ix)) scratch
        (by omega) (by omega) (by simp [hx]) (by rw [hslen]; omega) hsv ?_
      intro j hj
      rw [List.getD_eq_getElem?_getD]
      rcases eq_or_ne j ix with hje | hje
      · subst hje
        rw [List.getElem?_set_self (by omega), Option.getD_some, if_pos (by omega)]
      · rw [List.getElem?_set_ne (Ne.symm hje), ← List.getD_eq_getElem?_getD,
          hxv j hj]
        rcases lt_or_ge j ix with hjlt | hjge
        · rw [if_pos hjlt, if_pos (by omega)]
        · rw [if_neg (by omega), if_neg (by omega)]

/-- Unfolding of `tdZ` above the backward sweep's range. -/
theorem tdZ_of_ge (n : ℕ) (lower diag upper b : List ℚ) (i : ℕ)
    (h : n - 2 ≤ i) :
    tdZ n lower diag upper b i = tdW lower diag upper b i := by
  rw [tdZ, if_pos h]

/-- Unfolding of `tdZ` inside the backward sweep's range. -/
theorem tdZ_of_lt (n : ℕ) (lower diag upper b : List ℚ) (i : ℕ)
    (h : i < n - 2) :
    tdZ n lower diag upper b i
      = tdW lower diag upper b i
        - tdC lower diag upper i * tdZ n lower diag upper b (i + 1) := by
  rw [tdZ, if_neg (not_le.mpr h)]

/-- Invariant of the backward sweep: entered at row `ix ≤ n - 3` with `x`
holding final values above `ix` and forward values up to `ix`, it terminates
with `x = tdZ` everywhere. -/
theorem thomasBwd_spec (n : ℕ) (lower diag upper b : List ℚ)
    (scratch : List ℚ) (hscr : scratch.length = n - 1)
    (hsv : ∀ j, j < n - 1 → scratch.getD j 0 = tdC lower diag upper j)
    (hn : 3 ≤ n) :
    ∀ (ix : ℕ) (x : List ℚ), ix ≤ n - 3 → x.length = n →
      (∀ j, j < n →
        x.getD j 0 = if ix < j then tdZ n lower diag upper b j
          else tdW lower diag upper b j) →
      ∃ x', thomasBwd scratch ix x = some x' ∧ x'.length = n
        ∧ ∀ j, j < n → x'.getD j 0 = tdZ n lower diag upper b j := by
  intro ix
  induction ix with
  | zero =>
    intro x hix hx hxv
    have es : scratch[0]? = some (tdC lower diag upper 0) := by
      rw [getElem?_eq_some_getD scratch 0 0 (by omega)]
      rw [hsv 0 (by omega)]
    have exn : x[0 + 1]? = some (tdZ n lower diag upper b 1) := by
      rw [getElem?_eq_some_getD x 0 1 (by omega), hxv 1 (by omega),
        if_pos (by omega)]
    have exi : x[0]? = some (tdW lower diag upper b 0) := by
      rw [getElem?_eq_some_getD x 0 0 (by omega), hxv 0 (by omega),
        if_neg (lt_irrefl 0)]
    refine ⟨x.set 0 (tdW lower diag upper b 0
      - tdC lower diag upper 0 * tdZ n lower diag upper b 1), ?_, by simp [hx], ?_⟩
    · simp only [thomasBwd, es, exn, exi, Option.bind_eq_bind, Option.some_bind]
    · intro j hj
      rw [List.getD_eq_getElem?_getD]
      rcases eq_or_ne j 0 with hje | hje
      · subst hje
        rw [List.getElem?_set_self (by omega), Option.getD_some,
          tdZ_of_lt n lower diag upper b 0 (by omega)]
      · rw [List.getElem?_set_ne (Ne.symm hje), ← List.getD_eq_getElem?_getD,
          hxv j hj, if_pos (by omega)]
  | succ k ih =>
    intro x hix hx hxv
    have es : scratch[k + 1]? = some (tdC lower diag upper (k + 1)) := by
      rw [getElem?_eq_some_getD scratch 0 (k + 1) (by omega)]
      rw [hsv (k + 1) (by omega)]
    have exn : x[k + 1 + 1]? = some (tdZ n lower diag upper b (k + 2)) := by
      rw [getElem?_eq_some_getD x 0 (k + 2) (by omega), hxv (k + 2) (by omega),
        if_pos (by omega)]
    have exi : x[k + 1]? = some (tdW lower diag upper b (k + 1)) := by
      rw [getElem?_eq_some_getD x 0 (k + 1) (by omega), hxv (k + 1) (by omega),
        if_neg (lt_irrefl (k + 1))]
    have hstep : thomasBwd scratch (k + 1) x
        = thomasBwd scratch k (x.set (k + 1) (tdW lower diag upper b (k + 1)
          - tdC lower diag upper (k + 1) * tdZ n lower diag upper b (k + 2))) := by
      simp only [thomasBwd, es, exn, exi, Option.bind_eq_bind, Option.some_bind]
    rw [hstep]
    refine ih _ (by omega) (by simp [hx]) ?_
    intro j hj
    rw [List.getD_eq_getElem?_getD]
    rcases eq_or_ne j (k + 1) with hje | hje
    · subst hje
      rw [List.getElem?_set_self (by omega), Option.getD_some,
        tdZ_of_lt n lower diag upper b (k + 1) (by omega), if_pos (by omega)]
    · rw [List.getElem?_set_ne (Ne.symm hje), ← List.getD_eq_getElem?_getD,
        hxv j hj]
      rcases lt_or_ge j (k + 1) with hjlt | hjge
      · rw [if_neg (by omega), if_neg (by omega)]
      · rw [if_pos (by omega), if_pos (by omega)]

/-- With matching shapes and `n ≥ 2`, `thomas` never aborts and returns
exactly the `tdZ` values (in particular, the skipped backward step at row
`n - 2` is visible in `tdZ`). -/
theorem thomas_spec (n : ℕ) (lower diag upper b : List ℚ)
    (hl : lower.length = n - 1) (hd : diag.length = n)
    (hu : upper.length = n - 1) (hb : b.length = n) (hn : 2 ≤ n) :
    ∃ z, thomas n lower diag upper b = some (.ok z) ∧ z.length = n
      ∧ ∀ j, j < n → z.getD j 0 = tdZ n lower diag upper b j := by
  have eu : upper[0]? = some (upper.getD 0 0) :=
    getElem?_eq_some_getD _ _ _ (by omega)
  have ed : diag[0]? = some (diag.getD 0 0) :=
    getElem?_eq_some_getD _ _ _ (by omega)
  have eb : b[0]? = some (b.getD 0 0) :=
    getElem?_eq_some_getD _ _ _ (by omega)
  have hsv0 : ∀ j, j < ([upper.getD 0 0 / diag.getD 0 0] : List ℚ).length →
      ([upper.getD 0 0 / diag.getD 0 0] : List ℚ).getD j 0
        = tdC lower diag upper j := by
    intro j hj
    simp only [List.length_singleton] at hj
    have hj0 : j = 0 := by omega
    subst hj0
    simp [tdC]
  have hxv0 : ∀ j, j < n →
      (b.set 0 (b.getD 0 0 / diag.getD 0 0)).getD j 0
        = if j < 1 then tdW lower diag upper b j else b.getD j 0 := by
    intro j hj
    rw [List.getD_eq_getElem?_getD]
    rcases eq_or_ne j 0 with hje | hje
    · subst hje
      rw [List.getElem?_set_self (by omega), Option.getD_some, if_pos (by omega)]
      simp [tdW]
    · rw [List.getElem?_set_ne (Ne.symm hje), ← List.getD_eq_getElem?_getD,
        if_neg (by omega)]
  obtain ⟨x', scratch', hfwd, hxlen, hslen, hsv, hxv⟩ :=
    thomasFwd_spec n lower diag upper b hl hd hu (n - 1) 1
      (b.set 0 (b.getD 0 0 / diag.getD 0 0)) [upper.getD 0 0 / diag.getD 0 0]
      (by omega) le_rfl (by simp [hb]) (by simp; omega) hsv0 hxv0
  rcases lt_or_ge n 3 with h3 | h3
  · refine ⟨x', ?_, hxlen, ?_⟩
    · rw [thomas, if_neg (by omega)]
      simp only [eu, ed, eb, Option.bind_eq_bind, Option.some_bind, hfwd,
        if_neg (by omega : ¬ 2 < n)]
      rfl
    · intro j hj
      rw [hxv j hj, tdZ_of_ge n lower diag upper b j (by omega)]
  · have hinv : ∀ j, j < n →
        x'.getD j 0 = if n - 3 < j then tdZ n lower diag upper b j
          else tdW lower diag upper b j := by
      intro j hj
      rw [hxv j hj]
      rcases lt_or_ge (n - 3) j with hj3 | hj3
      · rw [if_pos hj3, tdZ_of_ge n lower diag upper b j (by omega)]
      · rw [if_neg (by omega)]
    obtain ⟨x'', hbwd, hxlen', hxv'⟩ :=
      thomasBwd_spec n lower diag upper b scratch' hslen hsv h3 (n - 3) x'
        le_rfl hxlen hinv
    refine ⟨x'', ?_, hxlen', hxv'⟩
    rw [thomas, if_neg (by omega)]
    simp only [eu, ed, eb, Option.bind_eq_bind, Option.some_bind, hfwd,
      if_pos (by omega : 2 < n), hbwd]
    rfl

/-- Entry of `nUpper` (within range). -/
theorem nUpper_getD (raw : List (ℚ × ℚ)) (i : ℕ) (h : i < raw.length - 1) :
    (nUpper raw).getD i 0 = if i = 0 then 0 else nh raw i / 6 := by
  rw [List.getD_eq_getElem?_getD, nUpper, List.getElem?_ofFn]
  simp [List.ofFnNthVal, h]

/-- Entry of `nDiag` (within range). -/
theorem nDiag_getD (raw : List (ℚ × ℚ)) (i : ℕ) (h : i < raw.length) :
    (nDiag raw).getD i 0
      = if i = 0 then 1
        else if i + 1 = raw.length then 1
        else (nh raw (i - 1) + nh raw i) / 3 := by
  rw [List.getD_eq_getElem?_getD, nDiag, List.getElem?_ofFn]
  simp [List.ofFnNthVal, h]

/-- Entry of `nLower` (within range). -/
theorem nLower_getD (raw : List (ℚ × ℚ)) (i : ℕ) (h : i < raw.length - 1) :
    (nLower raw).getD i 0
      = if i + 1 = raw.length - 1 then 0 else nh raw i / 6 := by
  rw [List.getD_eq_getElem?_getD, nLower, List.getElem?_ofFn]
  simp [List.ofFnNthVal, h]

/-- Entry of `nB` (within range). -/
theorem nB_getD (raw : List (ℚ × ℚ)) (i : ℕ) (h : i < raw.length) :
    (nB raw).getD i 0
      = if i = 0 ∨ i + 1 = raw.length then 0
        else (ptY raw (i + 1) - ptY raw i) / nh raw i
          - (ptY raw i - ptY raw (i - 1)) / nh raw (i - 1) := by
  rw [List.getD_eq_getElem?_getD, nB, List.getElem?_ofFn]
  simp [List.ofFnNthVal, h]

/-- Outcome of `NaturalCubicSpline::try_new` on an input of length at least 3:
with the system solved by `thomas`, success stores the `tdZ` values iff the
`x`-chain condition holds. -/
theorem natural_try_new_spec (raw : List (ℚ × ℚ)) (p0 : ℚ × ℚ)
    (h0 : raw[0]? = some p0) (h3 : 3 ≤ raw.length) :
    (¬ List.Chain (· ≤ ·) p0.1 (raw.map (·.1)) →
      NaturalCubicSpline.try_new raw = some (.error .PointOrderError))
    ∧ (List.Chain (· ≤ ·) p0.1 (raw.map (·.1)) →
      ∃ s, NaturalCubicSpline.try_new raw = some (.ok s)
        ∧ s.points.length = raw.length
        ∧ ∀ j, j < raw.length →
            s.points.getD j ⟨0, 0, 0⟩
              = ⟨ptX raw j, ptY raw j,
                tdZ raw.length (nLower raw) (nDiag raw) (nUpper raw)
                  (nB raw) j⟩) := by
  have hul : (nUpper raw).length = raw.length - 1 := List.length_ofFn _
  have hdl : (nDiag raw).length = raw.length := List.length_ofFn _
  have hll : (nLower raw).length = raw.length - 1 := List.length_ofFn _
  have hbl : (nB raw).length = raw.length := List.length_ofFn _
  have hmnew : TridiagonalMatrix.try_new (nUpper raw) (nDiag raw) (nLower raw)
      = .ok ⟨nUpper raw, nDiag raw, nLower raw, raw.length⟩ := by
    rw [TridiagonalMatrix.try_new, if_neg]
    · rw [hdl]
    · rw [not_not]
      refine ⟨by rw [hul, hll], by rw [hul, hdl]; omega⟩
  obtain ⟨z, hz, hzlen, hzv⟩ :=
    thomas_spec raw.length (nLower raw) (nDiag raw) (nUpper raw) (nB raw)
      hll hdl hul hbl (by omega)
  have hsolve : TridiagonalMatrix.try_solve
      ⟨nUpper raw, nDiag raw, nLower raw, raw.length⟩ (nB raw)
      = some (.ok z) := hz
  have hzip : (raw.zip z).map (·.1.1) = raw.map (·.1) := by
    have h1 : (raw.zip z).map Prod.fst = raw :=
      List.map_fst_zip raw z (by omega)
    calc (raw.zip z).map (·.1.1)
        = ((raw.zip z).map Prod.fst).map (·.1) := by
          rw [List.map_map]; rfl
      _ = raw.map (·.1) := by rw [h1]
  have hziplen : (raw.zip z).length = raw.length := by
    rw [List.length_zip, hzlen, min_self]
  constructor
  · intro hnc
    rcases naturalBuild_spec (raw.zip z) p0.1 with ⟨hc, -⟩ | ⟨-, heq⟩
    · rw [hzip] at hc
      exact absurd hc hnc
    · rw [NaturalCubicSpline.try_new, if_neg (by omega)]
      simp only [hmnew, exceptUnwrap, Option.bind_eq_bind, Option.some_bind,
        hsolve, h0, heq]
  · intro hc
    rcases naturalBuild_spec (raw.zip z) p0.1 with ⟨-, heq⟩ | ⟨hnc, -⟩
    · refine ⟨⟨(raw.zip z).map fun p => ⟨p.1.1, p.1.2, p.2⟩⟩, ?_, ?_, ?_⟩
      · rw [NaturalCubicSpline.try_new, if_neg (by omega)]
        simp only [hmnew, exceptUnwrap, Option.bind_eq_bind, Option.some_bind,
          hsolve, h0, heq]
      · simp only [List.length_map, hziplen]
      · intro j hj
        have hjz : (raw.zip z)[j]? = some (raw.getD j (0, 0), z.getD j 0) := by
          rw [List.getElem?_zip_eq_some]
          exact ⟨getElem?_eq_some_getD raw (0, 0) j hj,
            getElem?_eq_some_getD z 0 j (by omega)⟩
        rw [List.getD_eq_getElem?_getD, List.getElem?_map, hjz,
          Option.map_some', Option.getD_some, hzv j hj]
        rfl
    · rw [hzip] at hnc
      exact absurd hc hnc

/-- Adjacent-entry monotonicity in `getElem?` form equals the `ptX` form
(pair lists). -/
theorem adjacent_iff_ptX (raw : List (ℚ × ℚ)) :
    (∀ (i : ℕ) a c, raw[i]? = some a → raw[i + 1]? = some c → a.1 ≤ c.1)
      ↔ ∀ i, i + 1 < raw.length → ptX raw i ≤ ptX raw (i + 1) := by
  constructor
  · intro h i hi
    exact h i _ _ (getElem?_eq_some_getD raw (0, 0) i (by omega))
      (getElem?_eq_some_getD raw (0, 0) (i + 1) hi)
  · intro h i a c ha hc
    have hi1 : i + 1 < raw.length := (List.getElem?_eq_some_iff.mp hc).1
    have ea := getElem?_eq_some_getD raw (0, 0) i (by omega)
    rw [ha] at ea
    obtain rfl := Option.some.inj ea
    have ec := getElem?_eq_some_getD raw (0, 0) (i + 1) hi1
    rw [hc] at ec
    obtain rfl := Option.some.inj ec
    exact h i hi1

/-- Adjacent-entry monotonicity in `getElem?` form equals the `ptX3` form
(triple lists). -/
theorem adjacent_iff_ptX3 (raw : List (ℚ × ℚ × ℚ)) :
    (∀ (i : ℕ) a c, raw[i]? = some a → raw[i + 1]? = some c → a.1 ≤ c.1)
      ↔ ∀ i, i + 1 < raw.length → ptX3 raw i ≤ ptX3 raw (i + 1) := by
  constructor
  · intro h i hi
    exact h i _ _ (getElem?_eq_some_getD raw (0, 0, 0) i (by omega))
      (getElem?_eq_some_getD raw (0, 0, 0) (i + 1) hi)
  · intro h i a c ha hc
    have hi1 : i + 1 < raw.length := (List.getElem?_eq_some_iff.mp hc).1
    have ea := getElem?_eq_some_getD raw (0, 0, 0) i (by omega)
    rw [ha] at ea
    obtain rfl := Option.some.inj ea
    have ec := getElem?_eq_some_getD raw (0, 0, 0) (i + 1) hi1
    rw [hc] at ec
    obtain rfl := Option.some.inj ec
    exact h i hi1

/-- C8 counterexample: the claim would require a one-point Hermite
construction (fewer than the stated minimum of 2) to fail with
`InsufficientPointsError(1)`; instead it succeeds — `HermiteSpline::try_new`
has no minimum-count check at all. -/
theorem hermite_accepts_single_point :
    HermiteSpline.try_new [(0, 0, 0)] = some (.ok ⟨[⟨0, 0, 0⟩]⟩)
      ∧ HermiteSpline.try_new [(0, 0, 0)]
        ≠ some (.error (.InsufficientPointsError 1)) := by
  have h1 : HermiteSpline.try_new [(0, 0, 0)] = some (.ok ⟨[⟨0, 0, 0⟩]⟩) := by
    norm_num [HermiteSpline.try_new, hermiteBuild, Except.map,
      -Prod.mk_zero_zero]
  exact ⟨h1, by rw [h1]; simp⟩

/-- C8 (amended): Catmull-Rom and natural-cubic constructions with fewer than
3 points fail with `InsufficientPointsError(n)` reporting the true count `n`;
Hermite performs no minimum-count check and accepts a single point. -/
theorem insufficient_points_check :
    (∀ raw : List (ℚ × ℚ), raw.length < 3 →
      CatmullRomSpline.try_new raw
          = some (.error (.InsufficientPointsError raw.length))
        ∧ NaturalCubicSpline.try_new raw
          = some (.error (.InsufficientPointsError raw.length)))
      ∧ ∀ x y d : ℚ, HermiteSpline.try_new [(x, y, d)]
          = some (.ok ⟨[⟨x, y, d⟩]⟩) := by
  constructor
  · intro raw h
    exact ⟨by rw [CatmullRomSpline.try_new, if_pos h],
      by rw [NaturalCubicSpline.try_new, if_pos h]⟩
  · intro x y d
    simp [HermiteSpline.try_new, hermiteBuild, Except.map]

/-- Witness for `insufficient_points_check` at the concrete inputs
`[(4, 5)]` (count 1) and `(7, 8, 9)`. -/
theorem insufficient_points_check_witness :
    ([((4 : ℚ), (5 : ℚ))].length < 3 ∧
      CatmullRomSpline.try_new [((4 : ℚ), (5 : ℚ))]
        = some (.error (.InsufficientPointsError [((4 : ℚ), (5 : ℚ))].length)))
      ∧ HermiteSpline.try_new [(7, 8, 9)] = some (.ok ⟨[⟨7, 8, 9⟩]⟩) :=
  ⟨⟨by norm_num, (insufficient_points_check.1 [(4, 5)] (by norm_num)).1⟩,
    insufficient_points_check.2 7 8 9⟩

/-- C9 counterexample: on two decreasing points the Catmull-Rom constructor
reports `InsufficientPointsError(2)`, not `PointOrderError`, because the
count check runs first — refuting "returns `PointOrderError` iff some `x` is
below its predecessor". -/
theorem catmull_misorder_two_points :
    CatmullRomSpline.try_new [(1, 0), (0, 0)]
        = some (.error (.InsufficientPointsError 2))
      ∧ CatmullRomSpline.try_new [(1, 0), (0, 0)]
        ≠ some (.error .PointOrderError)
      ∧ ptX [(1, 0), (0, 0)] 1 < ptX [(1, 0), (0, 0)] 0 := by
  have h1 : CatmullRomSpline.try_new [(1, 0), (0, 0)]
      = some (.error (.InsufficientPointsError 2)) := by
    rw [CatmullRomSpline.try_new, if_pos (by norm_num)]
    norm_num
  exact ⟨h1, by rw [h1]; simp, by norm_num [ptX]⟩

/-- C9 (amended): for inputs meeting the variant's minimum count (nonempty
for Hermite, at least 3 points for Catmull-Rom and natural cubic), `try_new`
returns `PointOrderError` iff some point's `x` is strictly below its
predecessor's; with non-decreasing `x` (equal consecutive `x` included)
construction succeeds. -/
theorem point_order_error_iff :
    (∀ raw : List (ℚ × ℚ × ℚ), raw ≠ [] →
      (HermiteSpline.try_new raw = some (.error .PointOrderError)
        ↔ ∃ i, i + 1 < raw.length ∧ ptX3 raw (i + 1) < ptX3 raw i)
      ∧ ((∀ i, i + 1 < raw.length → ptX3 raw i ≤ ptX3 raw (i + 1)) →
        ∃ s, HermiteSpline.try_new raw = some (.ok s)))
    ∧ (∀ raw : List (ℚ × ℚ), 3 ≤ raw.length →
      (CatmullRomSpline.try_new raw = some (.error .PointOrderError)
        ↔ ∃ i, i + 1 < raw.length ∧ ptX raw (i + 1) < ptX raw i)
      ∧ ((∀ i, i + 1 < raw.length → ptX raw i ≤ ptX raw (i + 1)) →
        ∃ s, CatmullRomSpline.try_new raw = some (.ok s)))
    ∧ (∀ raw : List (ℚ × ℚ), 3 ≤ raw.length →
      (NaturalCubicSpline.try_new raw = some (.error .PointOrderError)
        ↔ ∃ i, i + 1 < raw.length ∧ ptX raw (i + 1) < ptX raw i)
      ∧ ((∀ i, i + 1 < raw.length → ptX raw i ≤ ptX raw (i + 1)) →
        ∃ s, NaturalCubicSpline.try_new raw = some (.ok s))) := by
  refine ⟨?_, ?_, ?_⟩
  · intro raw hne
    have h0 : raw[0]? = some (raw.getD 0 (0, 0, 0)) :=
      getElem?_eq_some_getD raw (0, 0, 0) 0 (List.length_pos.mpr hne)
    have hspec := hermite_try_new_spec raw _ h0
    have hchain := chain_map_iff_adjacent (·.1) raw _ h0
    constructor
    · constructor
      · intro herr
        by_contra hno
        push_neg at hno
        have hc := hchain.mpr ((adjacent_iff_ptX3 raw).mpr hno)
        rw [hspec.1 hc] at herr
        simp at herr
      · rintro ⟨i, hi, hdec⟩
        refine hspec.2 ?_
        intro hc
        exact absurd ((adjacent_iff_ptX3 raw).mp (hchain.mp hc) i hi)
          (not_le.mpr hdec)
    · intro hmono
      exact ⟨_, hspec.1 (hchain.mpr ((adjacent_iff_ptX3 raw).mpr hmono))⟩
  · intro raw h3
    have h0 : raw[0]? = some (raw.getD 0 (0, 0)) :=
      getElem?_eq_some_getD raw (0, 0) 0 (by omega)
    have hspec := catmull_try_new_spec raw _ h0 h3
    have hchain := chain_map_iff_adjacent (·.1) raw _ h0
    constructor
    · constructor
      · intro herr
        by_contra hno
        push_neg at hno
        have hc := hchain.mpr ((adjacent_iff_ptX raw).mpr hno)
        rw [hspec.1 hc] at herr
        simp at herr
      · rintro ⟨i, hi, hdec⟩
        refine hspec.2 ?_
        intro hc
        exact absurd ((adjacent_iff_ptX raw).mp (hchain.mp hc) i hi)
          (not_le.mpr hdec)
    · intro hmono
      exact ⟨_, hspec.1 (hchain.mpr ((adjacent_iff_ptX raw).mpr hmono))⟩
  · intro raw h3
    have h0 : raw[0]? = some (raw.getD 0 (0, 0)) :=
      getElem?_eq_some_getD raw (0, 0) 0 (by omega)
    have hspec := natural_try_new_spec raw _ h0 h3
    have hchain := chain_map_iff_adjacent (·.1) raw _ h0
    constructor
    · constructor
      · intro herr
        by_contra hno
        push_neg at hno
        obtain ⟨s, hs, -, -⟩ :=
          hspec.2 (hchain.mpr ((adjacent_iff_ptX raw).mpr hno))
        rw [hs] at herr
        simp at herr
      · rintro ⟨i, hi, hdec⟩
        refine hspec.1 ?_
        intro hc
        exact absurd ((adjacent_iff_ptX raw).mp (hchain.mp hc) i hi)
          (not_le.mpr hdec)
    · intro hmono
      obtain ⟨s, hs, -, -⟩ :=
        hspec.2 (hchain.mpr ((adjacent_iff_ptX raw).mpr hmono))
      exact ⟨s, hs⟩

/-- Witness for `point_order_error_iff`: a decreasing three-point Catmull-Rom
input is rejected with `PointOrderError`, and an input with equal consecutive
`x` constructs successfully for the natural cubic spline. -/
theorem point_order_error_iff_witness :
    CatmullRomSpline.try_new [(0, 0), (2, 1), (1, 5)]
        = some (.error .PointOrderError)
      ∧ ∃ s, NaturalCubicSpline.try_new [(0, 0), (0, 1), (1, 5)]
        = some (.ok s) := by
  constructor
  · refine (point_order_error_iff.2.1 [(0, 0), (2, 1), (1, 5)]
      (by norm_num)).1.mpr ⟨1, by norm_num, ?_⟩
    norm_num [ptX]
  · exact (point_order_error_iff.2.2 [(0, 0), (0, 1), (1, 5)]
      (by norm_num)).2 (by
        intro i hi
        norm_num at hi
        have hcases : i = 0 ∨ i = 1 := by omega
        rcases hcases with rfl | rfl <;> norm_num [ptX])

/-- Helper for C7, Hermite case: with strictly increasing knots, evaluating
at knot `i` returns the stored `y`. -/
theorem hermite_knot_eval (raw : List (ℚ × ℚ × ℚ)) (s : HermiteSpline)
    (i : ℕ) (hok : HermiteSpline.try_new raw = some (.ok s))
    (hstrict : ∀ j, j + 1 < raw.length → ptX3 raw j < ptX3 raw (j + 1))
    (hi : i < raw.length) :
    s.try_value (ptX3 raw i) = some (.ok (ptY3 raw i)) := by
  have hne : raw ≠ [] := by
    intro h
    subst h
    rw [show HermiteSpline.try_new [] = none from rfl] at hok
    cases hok
  have h0 : raw[0]? = some (raw.getD 0 (0, 0, 0)) :=
    getElem?_eq_some_getD raw (0, 0, 0) 0 (List.length_pos.mpr hne)
  have hspec := hermite_try_new_spec raw _ h0
  have hchain := chain_map_iff_adjacent (·.1) raw _ h0
  have hok2 := hspec.1 (hchain.mpr ((adjacent_iff_ptX3 raw).mpr
    (fun j hj => le_of_lt (hstrict j hj))))
  rw [hok] at hok2
  simp only [Option.some.injEq, Except.ok.injEq] at hok2
  subst hok2
  have hplen : (raw.map fun p => (⟨p.1, p.2.1, p.2.2⟩ : HPoint)).length
      = raw.length := List.length_map _ _
  have hpt : ∀ (j : ℕ), j < raw.length →
      (raw.map fun p => (⟨p.1, p.2.1, p.2.2⟩ : HPoint))[j]?
        = some ⟨ptX3 raw j, ptY3 raw j, (raw.getD j (0, 0, 0)).2.2⟩ := by
    intro j hj
    rw [List.getElem?_map, getElem?_eq_some_getD raw (0, 0, 0) j hj,
      Option.map_some']
    rfl
  have hadj : ∀ (j : ℕ) a c,
      (raw.map fun p => (⟨p.1, p.2.1, p.2.2⟩ : HPoint))[j]? = some a →
      (raw.map fun p => (⟨p.1, p.2.1, p.2.2⟩ : HPoint))[j + 1]? = some c →
      a.x < c.x := by
    intro j a c ha hc
    have hj1 : j + 1 < raw.length := by
      have := (List.getElem?_eq_some_iff.mp hc).1
      rwa [hplen] at this
    rw [hpt j (by omega)] at ha
    rw [hpt (j + 1) hj1] at hc
    obtain rfl := Option.some.inj ha
    obtain rfl := Option.some.inj hc
    exact hstrict j hj1
  have hstrictAll := strict_mono_of_adjacent HPoint.x _ hadj
  have hfound := binarySearchBy_found HPoint.x
    (raw.map fun p => (⟨p.1, p.2.1, p.2.2⟩ : HPoint)) i
    ⟨ptX3 raw i, ptY3 raw i, (raw.getD i (0, 0, 0)).2.2⟩ hstrictAll
    (hpt i hi)
  have hfound' : binarySearchBy
      (fun point : HPoint => ratCompare point.x (ptX3 raw i))
      (raw.map fun p => (⟨p.1, p.2.1, p.2.2⟩ : HPoint)) = .ok i := hfound
  rw [HermiteSpline.try_value]
  simp only [hfound', hpt i hi, Option.map_some']

/-- Helper for C7, Catmull-Rom case. -/
theorem catmull_knot_eval (raw : List (ℚ × ℚ)) (s : CatmullRomSpline)
    (i : ℕ) (hok : CatmullRomSpline.try_new raw = some (.ok s))
    (hstrict : ∀ j, j + 1 < raw.length → ptX raw j < ptX raw (j + 1))
    (hi : i < raw.length) :
    s.try_value (ptX raw i) = some (.ok (ptY raw i)) := by
  have h3 : 3 ≤ raw.length := by
    by_contra h
    rw [CatmullRomSpline.try_new, if_pos (by omega)] at hok
    simp at hok
  have h0 : raw[0]? = some (raw.getD 0 (0, 0)) :=
    getElem?_eq_some_getD raw (0, 0) 0 (by omega)
  have hspec := catmull_try_new_spec raw _ h0 h3
  have hchain := chain_map_iff_adjacent (·.1) raw _ h0
  have hok2 := hspec.1 (hchain.mpr ((adjacent_iff_ptX raw).mpr
    (fun j hj => le_of_lt (hstrict j hj))))
  rw [hok] at hok2
  simp only [Option.some.injEq, Except.ok.injEq] at hok2
  subst hok2
  have hplen : (raw.map fun p => (⟨p.1, p.2⟩ : Point2)).length
      = raw.length := List.length_map _ _
  have hpt : ∀ (j : ℕ), j < raw.length →
      (raw.map fun p => (⟨p.1, p.2⟩ : Point2))[j]?
        = some ⟨ptX raw j, ptY raw j⟩ := by
    intro j hj
    rw [List.getElem?_map, getElem?_eq_some_getD raw (0, 0) j hj,
      Option.map_some']
    rfl
  have hadj : ∀ (j : ℕ) a c,
      (raw.map fun p => (⟨p.1, p.2⟩ : Point2))[j]? = some a →
      (raw.map fun p => (⟨p.1, p.2⟩ : Point2))[j + 1]? = some c →
      a.x < c.x := by
    intro j a c ha hc
    have hj1 : j + 1 < raw.length := by
      have := (List.getElem?_eq_some_iff.mp hc).1
      rwa [hplen] at this
    rw [hpt j (by omega)] at ha
    rw [hpt (j + 1) hj1] at hc
    obtain rfl := Option.some.inj ha
    obtain rfl := Option.some.inj hc
    exact hstrict j hj1
  have hstrictAll := strict_mono_of_adjacent Point2.x _ hadj
  have hfound := binarySearchBy_found Point2.x
    (raw.map fun p => (⟨p.1, p.2⟩ : Point2)) i
    ⟨ptX raw i, ptY raw i⟩ hstrictAll (hpt i hi)
  have hfound' : binarySearchBy
      (fun point : Point2 => ratCompare point.x (ptX raw i))
      (raw.map fun p => (⟨p.1, p.2⟩ : Point2)) = .ok i := hfound
  rw [CatmullRomSpline.try_value]
  simp only [hfound', hpt i hi, Option.map_some']

/-- Helper for C7, natural-cubic case. -/
theorem natural_knot_eval (raw : List (ℚ × ℚ)) (s : NaturalCubicSpline)
    (i : ℕ) (hok : NaturalCubicSpline.try_new raw = some (.ok s))
    (hstrict : ∀ j, j + 1 < raw.length → ptX raw j < ptX raw (j + 1))
    (hi : i < raw.length) :
    s.try_value (ptX raw i) = some (.ok (ptY raw i)) := by
  have h3 : 3 ≤ raw.length := by
    by_contra h
    rw [NaturalCubicSpline.try_new, if_pos (by omega)] at hok
    simp at hok
  have h0 : raw[0]? = some (raw.getD 0 (0, 0)) :=
    getElem?_eq_some_getD raw (0, 0) 0 (by omega)
  have hspec := natural_try_new_spec raw _ h0 h3
  have hchain := chain_map_iff_adjacent (·.1) raw _ h0
  obtain ⟨s', hs', hlen', hv'⟩ := hspec.2 (hchain.mpr
    ((adjacent_iff_ptX raw).mpr (fun j hj => le_of_lt (hstrict j hj))))
  rw [hok] at hs'
  simp only [Option.some.injEq, Except.ok.injEq] at hs'
  subst hs'
  have hpt : ∀ (j : ℕ), j < raw.length →
      s.points[j]? = some ⟨ptX raw j, ptY raw j,
        tdZ raw.length (nLower raw) (nDiag raw) (nUpper raw) (nB raw) j⟩ := by
    intro j hj
    rw [getElem?_eq_some_getD s.points ⟨0, 0, 0⟩ j (by omega), hv' j hj]
  have hadj : ∀ (j : ℕ) a c, s.points[j]? = some a →
      s.points[j + 1]? = some c → a.x < c.x := by
    intro j a c ha hc
    have hj1 : j + 1 < raw.length := by
      have := (List.getElem?_eq_some_iff.mp hc).1
      omega
    rw [hpt j (by omega)] at ha
    rw [hpt (j + 1) hj1] at hc
    obtain rfl := Option.some.inj ha
    obtain rfl := Option.some.inj hc
    exact hstrict j hj1
  have hstrictAll := strict_mono_of_adjacent NPoint.x _ hadj
  have hfound := binarySearchBy_found NPoint.x s.points i
    ⟨ptX raw i, ptY raw i,
      tdZ raw.length (nLower raw) (nDiag raw) (nUpper raw) (nB raw) i⟩
    hstrictAll (hpt i hi)
  have hfound' : binarySearchBy
      (fun point : NPoint => ratCompare point.x (ptX raw i))
      s.points = .ok i := hfound
  rw [NaturalCubicSpline.try_value]
  simp only [hfound', hpt i hi, Option.map_some']

/-- C7: for every valid point set with strictly increasing `x`-coordinates,
in any of the three variants, evaluating at a stored knot `x[i]` hits the
exact-match branch of the binary search and returns exactly the stored
`y[i]`. -/
theorem knot_evaluation_exact :
    (∀ (raw : List (ℚ × ℚ × ℚ)) (s : HermiteSpline) (i : ℕ),
      HermiteSpline.try_new raw = some (.ok s) →
      (∀ j, j + 1 < raw.length → ptX3 raw j < ptX3 raw (j + 1)) →
      i < raw.length →
      s.try_value (ptX3 raw i) = some (.ok (ptY3 raw i)))
    ∧ (∀ (raw : List (ℚ × ℚ)) (s : CatmullRomSpline) (i : ℕ),
      CatmullRomSpline.try_new raw = some (.ok s) →
      (∀ j, j + 1 < raw.length → ptX raw j < ptX raw (j + 1)) →
      i < raw.length →
      s.try_value (ptX raw i) = some (.ok (ptY raw i)))
    ∧ (∀ (raw : List (ℚ × ℚ)) (s : NaturalCubicSpline) (i : ℕ),
      NaturalCubicSpline.try_new raw = some (.ok s) →
      (∀ j, j + 1 < raw.length → ptX raw j < ptX raw (j + 1)) →
      i < raw.length →
      s.try_value (ptX raw i) = some (.ok (ptY raw i))) :=
  ⟨hermite_knot_eval, catmull_knot_eval, natural_knot_eval⟩

/-- Helper for C5, Hermite case: all divisors of any evaluation are
positive. -/
theorem hermite_divisors_pos (raw : List (ℚ × ℚ × ℚ)) (s : HermiteSpline)
    (hok : HermiteSpline.try_new raw = some (.ok s)) :
    ∀ q d, d ∈ hermiteDivisors s q → 0 < d := by
  intro q d hd
  have hne : raw ≠ [] := by
    intro h
    subst h
    rw [show HermiteSpline.try_new [] = none from rfl] at hok
    cases hok
  have h0 : raw[0]? = some (raw.getD 0 (0, 0, 0)) :=
    getElem?_eq_some_getD raw (0, 0, 0) 0 (List.length_pos.mpr hne)
  have hspec := hermite_try_new_spec raw _ h0
  have hchain : List.Chain (· ≤ ·) (raw.getD 0 (0, 0, 0)).1
      (raw.map (·.1)) := by
    by_contra hnc
    rw [hspec.2 hnc] at hok
    simp at hok
  have hok2 := hspec.1 hchain
  rw [hok] at hok2
  simp only [Option.some.injEq, Except.ok.injEq] at hok2
  subst hok2
  have hadj := (chain_map_iff_adjacent (·.1) raw _ h0).mp hchain
  have hmono : ∀ (i j : ℕ) a c, i < j →
      (raw.map fun p => (⟨p.1, p.2.1, p.2.2⟩ : HPoint))[i]? = some a →
      (raw.map fun p => (⟨p.1, p.2.1, p.2.2⟩ : HPoint))[j]? = some c →
      a.x ≤ c.x := by
    refine mono_of_adjacent HPoint.x _ ?_
    intro i a c ha hc
    rw [List.getElem?_map] at ha hc
    rcases Option.map_eq_some'.mp ha with ⟨a', ha', rfl⟩
    rcases Option.map_eq_some'.mp hc with ⟨c', hc', rfl⟩
    exact hadj i a' c' ha' hc'
  rcases binarySearchBy_spec HPoint.x q _ hmono with
    ⟨pos, a, heq, -, -⟩ | ⟨pos, heq, hle, hlo, hhi⟩
  · simp only [hermiteDivisors, heq] at hd
    cases hd
  · simp only [hermiteDivisors, heq] at hd
    rcases eq_or_ne pos 0 with h0' | h0'
    · simp only [if_pos h0'] at hd
      cases hd
    · simp only [if_neg h0'] at hd
      by_cases hlen : (raw.map fun p =>
          (⟨p.1, p.2.1, p.2.2⟩ : HPoint)).length < pos
      · simp only [if_pos hlen] at hd
        cases hd
      · simp only [if_neg hlen] at hd
        push_neg at hlen
        have hpm : pos - 1 <
            (raw.map fun p => (⟨p.1, p.2.1, p.2.2⟩ : HPoint)).length := by
          omega
        have ha := List.getElem?_eq_getElem hpm
        rcases lt_or_eq_of_le hlen with hpp | hpeq
        · have hc := List.getElem?_eq_getElem hpp
          simp only [ha, hc] at hd
          have h1 := hlo (pos - 1) _ (by omega) ha
          have h2 := hhi pos _ le_rfl hc
          rcases List.mem_singleton.mp hd with rfl
          linarith
        · rw [show (raw.map fun p =>
              (⟨p.1, p.2.1, p.2.2⟩ : HPoint))[pos]? = none from
              List.getElem?_eq_none (by omega)] at hd
          simp only [ha] at hd
          cases hd

/-- Helper for C5, Catmull-Rom case: all divisors of any evaluation are
positive. -/
theorem catmull_divisors_pos (raw : List (ℚ × ℚ)) (s : CatmullRomSpline)
    (hok : CatmullRomSpline.try_new raw = some (.ok s)) :
    ∀ q d, d ∈ catmullDivisors s q → 0 < d := by
  intro q d hd
  have h3 : 3 ≤ raw.length := by
    by_contra h
    rw [CatmullRomSpline.try_new, if_pos (by omega)] at hok
    simp at hok
  have h0 : raw[0]? = some (raw.getD 0 (0, 0)) :=
    getElem?_eq_some_getD raw (0, 0) 0 (by omega)
  have hspec := catmull_try_new_spec raw _ h0 h3
  have hchain : List.Chain (· ≤ ·) (raw.getD 0 (0, 0)).1
      (raw.map (·.1)) := by
    by_contra hnc
    rw [hspec.2 hnc] at hok
    simp at hok
  have hok2 := hspec.1 hchain
  rw [hok] at hok2
  simp only [Option.some.injEq, Except.ok.injEq] at hok2
  subst hok2
  have hadj := (chain_map_iff_adjacent (·.1) raw _ h0).mp hchain
  have hmono : ∀ (i j : ℕ) a c, i < j →
      (raw.map fun p => (⟨p.1, p.2⟩ : Point2))[i]? = some a →
      (raw.map fun p => (⟨p.1, p.2⟩ : Point2))[j]? = some c →
      a.x ≤ c.x := by
    refine mono_of_adjacent Point2.x _ ?_
    intro i a c ha hc
    rw [List.getElem?_map] at ha hc
    rcases Option.map_eq_some'.mp ha with ⟨a', ha', rfl⟩
    rcases Option.map_eq_some'.mp hc with ⟨c', hc', rfl⟩
    exact hadj i a' c' ha' hc'
  rcases binarySearchBy_spec Point2.x q _ hmono with
    ⟨pos, a, heq, -, -⟩ | ⟨pos, heq, hle, hlo, hhi⟩
  · simp only [catmullDivisors, heq] at hd
    cases hd
  · simp only [catmullDivisors, heq] at hd
    rcases eq_or_ne pos 0 with h0' | h0'
    · simp only [if_pos h0'] at hd
      cases hd
    · simp only [if_neg h0'] at hd
      by_cases hlen : (raw.map fun p => (⟨p.1, p.2⟩ : Point2)).length < pos
      · simp only [if_pos hlen] at hd
        cases hd
      · simp only [if_neg hlen] at hd
        push_neg at hlen
        have hpm : pos - 1 <
            (raw.map fun p => (⟨p.1, p.2⟩ : Point2)).length := by omega
        obtain ⟨pt, ha⟩ : ∃ pt,
            (raw.map fun p => (⟨p.1, p.2⟩ : Point2))[pos - 1]? = some pt :=
          ⟨_, List.getElem?_eq_getElem hpm⟩
        rcases lt_or_eq_of_le hlen with hpp | hpeq
        · obtain ⟨nx, hc⟩ : ∃ nx,
              (raw.map fun p => (⟨p.1, p.2⟩ : Point2))[pos]? = some nx :=
            ⟨_, List.getElem?_eq_getElem hpp⟩
          simp only [ha, hc] at hd
          have h1 := hlo (pos - 1) _ (by omega) ha
          have h2 := hhi pos _ le_rfl hc
          have hh : 0 < nx.x - pt.x := by linarith
          by_cases hfirst : pos - 1 = 0
          · simp only [if_pos hfirst] at hd
            rcases hnn : (raw.map fun p =>
                (⟨p.1, p.2⟩ : Point2))[pos + 1]? with _ | nn
            · rw [hnn] at hd
              rcases List.mem_singleton.mp hd with rfl
              exact hh
            · rw [hnn] at hd
              have hxe : nx.x ≤ nn.x := hmono pos (pos + 1) nx nn
                (by omega) hc hnn
              rcases List.mem_cons.mp hd with rfl | hd
              · exact hh
              · rcases List.mem_singleton.mp hd with rfl
                linarith
          · simp only [if_neg hfirst] at hd
            have hpm2 : pos - 2 <
                (raw.map fun p => (⟨p.1, p.2⟩ : Point2)).length := by omega
            obtain ⟨pv, hprev⟩ : ∃ pv,
                (raw.map fun p => (⟨p.1, p.2⟩ : Point2))[pos - 2]? = some pv :=
              ⟨_, List.getElem?_eq_getElem hpm2⟩
            have hpv : pv.x ≤ nx.x := hmono (pos - 2) pos pv nx
              (by omega) hprev hc
            by_cases hlast : pos + 1 =
                (raw.map fun p => (⟨p.1, p.2⟩ : Point2)).length
            · simp only [if_pos hlast] at hd
              rw [hprev] at hd
              rcases List.mem_cons.mp hd with rfl | hd
              · exact hh
              · rcases List.mem_singleton.mp hd with rfl
                linarith
            · simp only [if_neg hlast] at hd
              have hpn : pos + 1 <
                  (raw.map fun p => (⟨p.1, p.2⟩ : Point2)).length := by omega
              obtain ⟨nn, hnn⟩ : ∃ nn,
                  (raw.map fun p => (⟨p.1, p.2⟩ : Point2))[pos + 1]?
                    = some nn :=
                ⟨_, List.getElem?_eq_getElem hpn⟩
              have hxe : nx.x ≤ nn.x := hmono pos (pos + 1) nx nn
                (by omega) hc hnn
              rw [hprev, hnn] at hd
              rcases List.mem_cons.mp hd with rfl | hd
              · exact hh
              · rcases List.mem_cons.mp hd with rfl | hd
                · linarith
                · rcases List.mem_singleton.mp hd with rfl
                  linarith
        · rw [show (raw.map fun p => (⟨p.1, p.2⟩ : Point2))[pos]? = none from
            List.getElem?_eq_none (by omega)] at hd
          simp only [ha] at hd
          cases hd

/-- Helper for C5, natural-cubic case: all divisors of any evaluation are
positive. -/
theorem natural_divisors_pos (raw : List (ℚ × ℚ)) (s : NaturalCubicSpline)
    (hok : NaturalCubicSpline.try_new raw = some (.ok s)) :
    ∀ q d, d ∈ naturalDivisors s q → 0 < d := by
  intro q d hd
  have h3 : 3 ≤ raw.length := by
    by_contra h
    rw [NaturalCubicSpline.try_new, if_pos (by omega)] at hok
    simp at hok
  have h0 : raw[0]? = some (raw.getD 0 (0, 0)) :=
    getElem?_eq_some_getD raw (0, 0) 0 (by omega)
  have hspec := natural_try_new_spec raw _ h0 h3
  have hchain : List.Chain (· ≤ ·) (raw.getD 0 (0, 0)).1
      (raw.map (·.1)) := by
    by_contra hnc
    rw [hspec.1 hnc] at hok
    simp at hok
  obtain ⟨s', hs', hlen', hv'⟩ := hspec.2 hchain
  rw [hok] at hs'
  simp only [Option.some.injEq, Except.ok.injEq] at hs'
  subst hs'
  have hadj := (chain_map_iff_adjacent (·.1) raw _ h0).mp hchain
  have hpt : ∀ (j : ℕ), j < raw.length →
      s.points[j]? = some ⟨ptX raw j, ptY raw j,
        tdZ raw.length (nLower raw) (nDiag raw) (nUpper raw) (nB raw) j⟩ := by
    intro j hj
    rw [getElem?_eq_some_getD s.points ⟨0, 0, 0⟩ j (by omega), hv' j hj]
  have hmono : ∀ (i j : ℕ) a c, i < j →
      s.points[i]? = some a → s.points[j]? = some c → a.x ≤ c.x := by
    refine mono_of_adjacent NPoint.x _ ?_
    intro i a c ha hc
    have hi1 : i + 1 < raw.length := by
      have := (List.getElem?_eq_some_iff.mp hc).1
      omega
    rw [hpt i (by omega)] at ha
    rw [hpt (i + 1) hi1] at hc
    obtain rfl := Option.some.inj ha
    obtain rfl := Option.some.inj hc
    exact (adjacent_iff_ptX raw).mp hadj i hi1
  rcases binarySearchBy_spec NPoint.x q _ hmono with
    ⟨pos, a, heq, -, -⟩ | ⟨pos, heq, hle, hlo, hhi⟩
  · simp only [naturalDivisors, heq] at hd
    cases hd
  · simp only [naturalDivisors, heq] at hd
    rcases eq_or_ne pos 0 with h0' | h0'
    · simp only [if_pos h0'] at hd
      cases hd
    · simp only [if_neg h0'] at hd
      by_cases hlen : s.points.length < pos
      · simp only [if_pos hlen] at hd
        cases hd
      · simp only [if_neg hlen] at hd
        push_neg at hlen
        have hpm : pos - 1 < s.points.length := by omega
        obtain ⟨pt, ha⟩ : ∃ pt, s.points[pos - 1]? = some pt :=
          ⟨_, List.getElem?_eq_getElem hpm⟩
        rcases lt_or_eq_of_le hlen with hpp | hpeq
        · obtain ⟨nx, hc⟩ : ∃ nx, s.points[pos]? = some nx :=
            ⟨_, List.getElem?_eq_getElem hpp⟩
          simp only [ha, hc] at hd
          have h1 := hlo (pos - 1) _ (by omega) ha
          have h2 := hhi pos _ le_rfl hc
          fin_cases hd <;> linarith
        · rw [show s.points[pos]? = none from
            List.getElem?_eq_none (by omega)] at hd
          simp only [ha] at hd
          cases hd

/-- C5: for every spline whose construction succeeds, every division
performed during a successful or failing evaluate call has a strictly
positive (hence non-zero) divisor; in particular the segment spacing
`h = x[pos] - x[pos-1]` of any segment actually used for division is
strictly positive, guaranteed by the constructor's order check (the divisor
lists follow the source's division sites in execution order). -/
theorem evaluation_divisors_positive :
    (∀ (raw : List (ℚ × ℚ × ℚ)) (s : HermiteSpline),
      HermiteSpline.try_new raw = some (.ok s) →
      ∀ q d, d ∈ hermiteDivisors s q → 0 < d)
    ∧ (∀ (raw : List (ℚ × ℚ)) (s : CatmullRomSpline),
      CatmullRomSpline.try_new raw = some (.ok s) →
      ∀ q d, d ∈ catmullDivisors s q → 0 < d)
    ∧ (∀ (raw : List (ℚ × ℚ)) (s : NaturalCubicSpline),
      NaturalCubicSpline.try_new raw = some (.ok s) →
      ∀ q d, d ∈ naturalDivisors s q → 0 < d) :=
  ⟨hermite_divisors_pos, catmull_divisors_pos, natural_divisors_pos⟩

/-- Witness for `evaluation_divisors_positive`: the two-point Hermite spline
evaluated at `1/2` divides only by the segment width `1`, which is
positive. -/
theorem evaluation_divisors_positive_witness :
    (1 : ℚ) ∈ hermiteDivisors ⟨[⟨0, 0, 1⟩, ⟨1, 1, 2⟩]⟩ (1/2)
      ∧ (0 : ℚ) < 1 :=
  ⟨by norm_num [hermiteDivisors, binarySearchBy, bsLoop, ratCompare],
    evaluation_divisors_positive.1 [(0, 0, 1), (1, 1, 2)] _ hermite_two_new
      (1/2) 1
      (by norm_num [hermiteDivisors, binarySearchBy, bsLoop, ratCompare])⟩

/-- Witness for `knot_evaluation_exact`: the two-point Hermite spline at its
knot `x = 1` returns the stored `y = 1`, and the three-point natural cubic
spline at its knot `x = 1` returns the stored `y = 1`. -/
theorem knot_evaluation_exact_witness :
    HermiteSpline.try_value ⟨[⟨0, 0, 1⟩, ⟨1, 1, 2⟩]⟩
        (ptX3 [(0, 0, 1), (1, 1, 2)] 1)
      = some (.ok (ptY3 [(0, 0, 1), (1, 1, 2)] 1))
    ∧ NaturalCubicSpline.try_value ⟨[⟨0, 0, 0⟩, ⟨1, 1, -3⟩, ⟨2, 0, 0⟩]⟩
        (ptX [(0, 0), (1, 1), (2, 0)] 1)
      = some (.ok (ptY [(0, 0), (1, 1), (2, 0)] 1)) := by
  constructor
  · refine knot_evaluation_exact.1 [(0, 0, 1), (1, 1, 2)] _ 1 hermite_two_new
      ?_ (by norm_num)
    intro j hj
    have hj0 : j = 0 := by norm_num at hj; omega
    subst hj0
    norm_num [ptX3]
  · refine knot_evaluation_exact.2.2 [(0, 0), (1, 1), (2, 0)] _ 1
      natural_three_new ?_ (by norm_num)
    intro j hj
    norm_num at hj
    have hcases : j = 0 ∨ j = 1 := by omega
    rcases hcases with rfl | rfl <;>
      norm_num [ptX, -Prod.mk_zero_zero, -Prod.mk_one_one]

/-- Forward coefficient as a quotient by the running denominator. -/
theorem tdC_eq_div (lower diag upper : List ℚ) (i : ℕ) :
    tdC lower diag upper i
      = upper.getD i 0 / tdDen lower diag upper i := by
  cases i <;> rfl

/-- Positivity of the segment widths of a strictly increasing knot list. -/
theorem nh_pos (raw : List (ℚ × ℚ))
    (hstrict : ∀ j, j + 1 < raw.length → ptX raw j < ptX raw (j + 1)) :
    ∀ i, i + 1 < raw.length → 0 < nh raw i := by
  intro i hi
  have := hstrict i hi
  rw [nh]
  linarith

/-- Diagonal dominance of the natural-cubic system: every forward denominator
is positive and every forward coefficient lies in `[0, 1/2]`. -/
theorem natural_dominance (raw : List (ℚ × ℚ)) (h3 : 3 ≤ raw.length)
    (hstrict : ∀ j, j + 1 < raw.length → ptX raw j < ptX raw (j + 1)) :
    ∀ i, i ≤ raw.length - 1 →
      0 < tdDen (nLower raw) (nDiag raw) (nUpper raw) i
        ∧ 0 ≤ tdC (nLower raw) (nDiag raw) (nUpper raw) i
        ∧ tdC (nLower raw) (nDiag raw) (nUpper raw) i ≤ 1/2 := by
  have hpos := nh_pos raw hstrict
  intro i
  induction i with
  | zero =>
    intro _
    have hd0 : (nDiag raw).getD 0 0 = 1 := by
      rw [nDiag_getD raw 0 (by omega), if_pos rfl]
    have hu0 : (nUpper raw).getD 0 0 = 0 := by
      rw [nUpper_getD raw 0 (by omega), if_pos rfl]
    refine ⟨?_, ?_, ?_⟩
    · rw [tdDen, hd0]
      norm_num
    · rw [tdC, hu0, hd0]
      norm_num
    · rw [tdC, hu0, hd0]
      norm_num
  | succ k ih =>
    intro hk
    obtain ⟨ihden, ihc0, ihc2⟩ := ih (by omega)
    rcases eq_or_ne (k + 1) (raw.length - 1) with hlast | hmid
    · -- last row: diagonal 1, lower entry 0
      have hdk : (nDiag raw).getD (k + 1) 0 = 1 := by
        rw [nDiag_getD raw (k + 1) (by omega), if_neg (by omega),
          if_pos (by omega)]
      have hlk : (nLower raw).getD k 0 = 0 := by
        rw [nLower_getD raw k (by omega), if_pos (by omega)]
      have huk : (nUpper raw).getD (k + 1) 0 = 0 := by
        rw [List.getD_eq_getElem?_getD,
          List.getElem?_eq_none (by rw [nUpper, List.length_ofFn]; omega)]
        rfl
      have hden : tdDen (nLower raw) (nDiag raw) (nUpper raw) (k + 1) = 1 := by
        rw [tdDen, hdk, hlk]
        ring
      refine ⟨by rw [hden]; norm_num, ?_, ?_⟩
      · rw [tdC_eq_div, hden, huk]
        norm_num
      · rw [tdC_eq_div, hden, huk]
        norm_num
    · -- interior row
      have hk2 : k + 2 < raw.length := by omega
      have hdk : (nDiag raw).getD (k + 1) 0
          = (nh raw k + nh raw (k + 1)) / 3 := by
        rw [nDiag_getD raw (k + 1) (by omega), if_neg (by omega),
          if_neg (by omega)]
        norm_num
      have hlk : (nLower raw).getD k 0 = nh raw k / 6 := by
        rw [nLower_getD raw k (by omega), if_neg (by omega)]
      have huk : (nUpper raw).getD (k + 1) 0 = nh raw (k + 1) / 6 := by
        rw [nUpper_getD raw (k + 1) (by omega), if_neg (by omega)]
      have hhk : 0 < nh raw k := hpos k (by omega)
      have hhk1 : 0 < nh raw (k + 1) := hpos (k + 1) (by omega)
      have hprod : nh raw k / 6 * tdC (nLower raw) (nDiag raw) (nUpper raw) k
          ≤ nh raw k / 12 := by
        have h12 : nh raw k / 6 * tdC (nLower raw) (nDiag raw) (nUpper raw) k
            ≤ nh raw k / 6 * (1/2) := by
          apply mul_le_mul_of_nonneg_left ihc2
          positivity
        linarith
      have hprod0 : 0 ≤ nh raw k / 6
          * tdC (nLower raw) (nDiag raw) (nUpper raw) k := by
        apply mul_nonneg _ ihc0
        positivity
      have hden : tdDen (nLower raw) (nDiag raw) (nUpper raw) (k + 1)
          = (nh raw k + nh raw (k + 1)) / 3
            - nh raw k / 6 * tdC (nLower raw) (nDiag raw) (nUpper raw) k := by
        rw [tdDen, hdk, hlk]
      have hdenpos : 0 < tdDen (nLower raw) (nDiag raw) (nUpper raw) (k + 1) := by
        rw [hden]
        linarith
      have hdenge : nh raw (k + 1) / 3
          ≤ tdDen (nLower raw) (nDiag raw) (nUpper raw) (k + 1) := by
        rw [hden]
        linarith
      refine ⟨hdenpos, ?_, ?_⟩
      · rw [tdC_eq_div, huk]
        positivity
      · rw [tdC_eq_div, huk]
        rw [div_le_iff₀ hdenpos]
        linarith

/-- The last forward-normalized value of the natural-cubic system vanishes:
its last row is `0·z[n-2] + 1·z[n-1] = 0`. -/
theorem tdW_last_zero (raw : List (ℚ × ℚ)) (h3 : 3 ≤ raw.length) :
    tdW (nLower raw) (nDiag raw) (nUpper raw) (nB raw) (raw.length - 1)
      = 0 := by
  obtain ⟨k, hk⟩ : ∃ k, raw.length - 1 = k + 1 := ⟨raw.length - 2, by omega⟩
  have hb : (nB raw).getD (k + 1) 0 = 0 := by
    rw [nB_getD raw (k + 1) (by omega), if_pos (Or.inr (by omega))]
  have hl : (nLower raw).getD k 0 = 0 := by
    rw [nLower_getD raw k (by omega), if_pos (by omega)]
  have hd : (nDiag raw).getD (k + 1) 0 = 1 := by
    rw [nDiag_getD raw (k + 1) (by omega), if_neg (by omega),
      if_pos (by omega)]
  rw [hk, tdW, hb, hl, hd]
  norm_num

/-- Row algebra of the Thomas sweeps: if row `i`'s two backward relations
hold and the denominator is non-zero, the row equation of `A·z = b` holds. -/
theorem tridiag_row_algebra (L D U B w' c' zm z z1 P : ℚ)
    (hP : P = D - L * c') (hPne : P ≠ 0)
    (hzm : zm = w' - c' * z)
    (hz : z = (B - L * w') / P - U / P * z1) :
    L * zm + D * z + U * z1 = B := by
  subst hzm hz hP
  field_simp
  ring

/-- C3: for every natural-cubic construction succeeding on `n ≥ 3` strictly
increasing points, the stored second derivatives satisfy the natural
tridiagonal system: `z[0] = 0`, `z[n-1] = 0`, and every interior row
`h[i-1]/6·z[i-1] + (h[i-1]+h[i])/3·z[i] + h[i]/6·z[i+1]
= (y[i+1]-y[i])/h[i] - (y[i]-y[i-1])/h[i-1]` — the solver's skipped backward
step is harmless here because `z[n-1] = 0`. -/
theorem natural_system_solved (raw : List (ℚ × ℚ)) (s : NaturalCubicSpline)
    (h3 : 3 ≤ raw.length)
    (hstrict : ∀ j, j + 1 < raw.length → ptX raw j < ptX raw (j + 1))
    (hok : NaturalCubicSpline.try_new raw = some (.ok s)) :
    (s.points.getD 0 ⟨0, 0, 0⟩).z = 0
    ∧ (s.points.getD (raw.length - 1) ⟨0, 0, 0⟩).z = 0
    ∧ ∀ i, 0 < i → i + 1 < raw.length →
        nh raw (i - 1) / 6 * (s.points.getD (i - 1) ⟨0, 0, 0⟩).z
          + (nh raw (i - 1) + nh raw i) / 3 * (s.points.getD i ⟨0, 0, 0⟩).z
          + nh raw i / 6 * (s.points.getD (i + 1) ⟨0, 0, 0⟩).z
        = (ptY raw (i + 1) - ptY raw i) / nh raw i
          - (ptY raw i - ptY raw (i - 1)) / nh raw (i - 1) := by
  have h0 : raw[0]? = some (raw.getD 0 (0, 0)) :=
    getElem?_eq_some_getD raw (0, 0) 0 (by omega)
  have hspec := natural_try_new_spec raw _ h0 h3
  have hchain := chain_map_iff_adjacent (·.1) raw _ h0
  obtain ⟨s', hs', hlen', hv'⟩ := hspec.2 (hchain.mpr
    ((adjacent_iff_ptX raw).mpr (fun j hj => le_of_lt (hstrict j hj))))
  rw [hok] at hs'
  simp only [Option.some.injEq, Except.ok.injEq] at hs'
  subst hs'
  have hz : ∀ j, j < raw.length → (s.points.getD j ⟨0, 0, 0⟩).z
      = tdZ raw.length (nLower raw) (nDiag raw) (nUpper raw) (nB raw) j := by
    intro j hj
    rw [hv' j hj]
  have hdom := natural_dominance raw h3 hstrict
  have hzlast : tdZ raw.length (nLower raw) (nDiag raw) (nUpper raw)
      (nB raw) (raw.length - 1) = 0 := by
    rw [tdZ_of_ge _ _ _ _ _ _ (by omega)]
    exact tdW_last_zero raw h3
  refine ⟨?_, ?_, ?_⟩
  · -- z[0] = 0
    rw [hz 0 (by omega), tdZ_of_lt _ _ _ _ _ _ (by omega)]
    have hw0 : tdW (nLower raw) (nDiag raw) (nUpper raw) (nB raw) 0 = 0 := by
      rw [tdW]
      rw [show (nB raw).getD 0 0 = 0 from by
          rw [nB_getD raw 0 (by omega), if_pos (Or.inl rfl)],
        show (nDiag raw).getD 0 0 = 1 from by
          rw [nDiag_getD raw 0 (by omega), if_pos rfl]]
      norm_num
    have hc0 : tdC (nLower raw) (nDiag raw) (nUpper raw) 0 = 0 := by
      rw [tdC]
      rw [show (nUpper raw).getD 0 0 = 0 from by
        rw [nUpper_getD raw 0 (by omega), if_pos rfl]]
      norm_num
    rw [hw0, hc0]
    ring
  · rw [hz (raw.length - 1) (by omega)]
    exact hzlast
  · intro i hi0 hin
    obtain ⟨k, rfl⟩ : ∃ k, i = k + 1 := ⟨i - 1, by omega⟩
    have hPpos := (hdom (k + 1) (by omega)).1
    have hP : tdDen (nLower raw) (nDiag raw) (nUpper raw) (k + 1)
        = (nDiag raw).getD (k + 1) 0
          - (nLower raw).getD k 0
            * tdC (nLower raw) (nDiag raw) (nUpper raw) k := by
      rw [tdDen]
    have hzm : tdZ raw.length (nLower raw) (nDiag raw) (nUpper raw)
        (nB raw) k
        = tdW (nLower raw) (nDiag raw) (nUpper raw) (nB raw) k
          - tdC (nLower raw) (nDiag raw) (nUpper raw) k
            * tdZ raw.length (nLower raw) (nDiag raw) (nUpper raw)
              (nB raw) (k + 1) :=
      tdZ_of_lt _ _ _ _ _ _ (by omega)
    have hweq : tdW (nLower raw) (nDiag raw) (nUpper raw) (nB raw) (k + 1)
        = ((nB raw).getD (k + 1) 0
            - (nLower raw).getD k 0
              * tdW (nLower raw) (nDiag raw) (nUpper raw) (nB raw) k)
          / tdDen (nLower raw) (nDiag raw) (nUpper raw) (k + 1) := by
      rw [tdW, tdDen]
    have hzrel : tdZ raw.length (nLower raw) (nDiag raw) (nUpper raw)
        (nB raw) (k + 1)
        = ((nB raw).getD (k + 1) 0
            - (nLower raw).getD k 0
              * tdW (nLower raw) (nDiag raw) (nUpper raw) (nB raw) k)
          / tdDen (nLower raw) (nDiag raw) (nUpper raw) (k + 1)
          - (nUpper raw).getD (k + 1) 0
            / tdDen (nLower raw) (nDiag raw) (nUpper raw) (k + 1)
            * tdZ raw.length (nLower raw) (nDiag raw) (nUpper raw)
              (nB raw) (k + 2) := by
      rcases lt_or_ge (k + 1) (raw.length - 2) with hlt | hge
      · rw [tdZ_of_lt _ _ _ _ _ _ hlt, hweq, tdC_eq_div]
      · have hk1 : k + 1 = raw.length - 2 := by omega
        have hk2 : k + 2 = raw.length - 1 := by omega
        rw [tdZ_of_ge _ _ _ _ _ _ (by omega), hk2, hzlast, hweq]
        ring
    have hrow := tridiag_row_algebra
      ((nLower raw).getD k 0) ((nDiag raw).getD (k + 1) 0)
      ((nUpper raw).getD (k + 1) 0) ((nB raw).getD (k + 1) 0)
      (tdW (nLower raw) (nDiag raw) (nUpper raw) (nB raw) k)
      (tdC (nLower raw) (nDiag raw) (nUpper raw) k)
      (tdZ raw.length (nLower raw) (nDiag raw) (nUpper raw) (nB raw) k)
      (tdZ raw.length (nLower raw) (nDiag raw) (nUpper raw) (nB raw) (k + 1))
      (tdZ raw.length (nLower raw) (nDiag raw) (nUpper raw) (nB raw) (k + 2))
      (tdDen (nLower raw) (nDiag raw) (nUpper raw) (k + 1))
      hP (ne_of_gt hPpos) hzm hzrel
    have hlk : (nLower raw).getD k 0 = nh raw k / 6 := by
      rw [nLower_getD raw k (by omega), if_neg (by omega)]
    have hdk : (nDiag raw).getD (k + 1) 0
        = (nh raw k + nh raw (k + 1)) / 3 := by
      rw [nDiag_getD raw (k + 1) (by omega), if_neg (by omega),
        if_neg (by omega)]
      norm_num
    have huk : (nUpper raw).getD (k + 1) 0 = nh raw (k + 1) / 6 := by
      rw [nUpper_getD raw (k + 1) (by omega), if_neg (by omega)]
    have hbk : (nB raw).getD (k + 1) 0
        = (ptY raw (k + 2) - ptY raw (k + 1)) / nh raw (k + 1)
          - (ptY raw (k + 1) - ptY raw k) / nh raw k := by
      rw [nB_getD raw (k + 1) (by omega), if_neg (by push_neg; omega)]
      norm_num
    rw [hlk, hdk, huk, hbk] at hrow
    have e1 : k + 1 - 1 = k := by omega
    rw [e1, hz k (by omega), hz (k + 1) (by omega), hz (k + 2) (by omega)]
    convert hrow using 2

/-- Witness for `natural_system_solved`: the three-point spline over
`[(0,0),(1,1),(2,0)]` stores `z = [0, -3, 0]`, which satisfies the natural
system. -/
theorem natural_system_solved_witness :
    (((⟨[⟨0, 0, 0⟩, ⟨1, 1, -3⟩, ⟨2, 0, 0⟩]⟩ : NaturalCubicSpline)).points.getD
        0 ⟨0, 0, 0⟩).z = 0
    ∧ (((⟨[⟨0, 0, 0⟩, ⟨1, 1, -3⟩, ⟨2, 0, 0⟩]⟩ : NaturalCubicSpline)).points.getD
        2 ⟨0, 0, 0⟩).z = 0
    ∧ ∀ i, 0 < i → i + 1 < 3 →
        nh [(0, 0), (1, 1), (2, 0)] (i - 1) / 6
            * (((⟨[⟨0, 0, 0⟩, ⟨1, 1, -3⟩, ⟨2, 0, 0⟩]⟩ :
              NaturalCubicSpline)).points.getD (i - 1) ⟨0, 0, 0⟩).z
          + (nh [(0, 0), (1, 1), (2, 0)] (i - 1)
              + nh [(0, 0), (1, 1), (2, 0)] i) / 3
            * (((⟨[⟨0, 0, 0⟩, ⟨1, 1, -3⟩, ⟨2, 0, 0⟩]⟩ :
              NaturalCubicSpline)).points.getD i ⟨0, 0, 0⟩).z
          + nh [(0, 0), (1, 1), (2, 0)] i / 6
            * (((⟨[⟨0, 0, 0⟩, ⟨1, 1, -3⟩, ⟨2, 0, 0⟩]⟩ :
              NaturalCubicSpline)).points.getD (i + 1) ⟨0, 0, 0⟩).z
        = (ptY [(0, 0), (1, 1), (2, 0)] (i + 1)
            - ptY [(0, 0), (1, 1), (2, 0)] i) / nh [(0, 0), (1, 1), (2, 0)] i
          - (ptY [(0, 0), (1, 1), (2, 0)] i
              - ptY [(0, 0), (1, 1), (2, 0)] (i - 1))
            / nh [(0, 0), (1, 1), (2, 0)] (i - 1) := by
  refine natural_system_solved [(0, 0), (1, 1), (2, 0)] _ (by norm_num) ?_
    natural_three_new
  intro j hj
  norm_num at hj
  have hcases : j = 0 ∨ j = 1 := by omega
  rcases hcases with rfl | rfl <;>
    norm_num [ptX, -Prod.mk_zero_zero, -Prod.mk_one_one]

/-- Derivative of the interior-segment cubic at the segment's left knot
`x1`: it is `(y2 - y0) / ((x1 - x0) + 2(x2 - x1))` — the denominator spans
the left segment plus twice the current one, because the source computes
`prev_h = next_point.x - prev_point.x` across two segments. -/
theorem catmullInterior_deriv_left (x0 y0 x1 y1 x2 y2 x3 y3 : ℚ)
    (h01 : x0 ≤ x1) (h12 : x1 < x2) :
    deriv (catmullInterior ⟨x0, y0⟩ ⟨x1, y1⟩ ⟨x2, y2⟩ ⟨x3, y3⟩) x1
      = (y2 - y0) / ((x1 - x0) + 2 * (x2 - x1)) := by
  have hh : (0 : ℚ) < x2 - x1 := by linarith
  have hph : (0 : ℚ) < (x2 - x1) + (x2 - x0) := by linarith
  have hδ : ∀ q : ℚ, HasDerivAt (fun q : ℚ => (q - x1) / (x2 - x1))
      (1 / (x2 - x1)) q := by
    intro q
    simpa using ((hasDerivAt_id q).sub_const x1).div_const (x2 - x1)
  have hd : HasDerivAt
      (catmullInterior ⟨x0, y0⟩ ⟨x1, y1⟩ ⟨x2, y2⟩ ⟨x3, y3⟩)
      ((((1 / (x2 - x1)) * ((x1 - x1) / (x2 - x1))
            + ((x1 - x1) / (x2 - x1)) * (1 / (x2 - x1)))
              * ((x1 - x1) / (x2 - x1))
          + (((x1 - x1) / (x2 - x1)) * ((x1 - x1) / (x2 - x1)))
            * (1 / (x2 - x1)))
          * ((-((x2 - x1) / ((x2 - x1) + (x2 - x0)))) * y0
            + (2 - (x2 - x1) / ((x2 - x1) + (x3 - x2))) * y1
            + (-2 + (x2 - x1) / ((x2 - x1) + (x2 - x0))) * y2
            + ((x2 - x1) / ((x2 - x1) + (x3 - x2))) * y3)
        + ((1 / (x2 - x1)) * ((x1 - x1) / (x2 - x1))
            + ((x1 - x1) / (x2 - x1)) * (1 / (x2 - x1)))
          * ((2 * ((x2 - x1) / ((x2 - x1) + (x2 - x0)))) * y0
            + ((x2 - x1) / ((x2 - x1) + (x3 - x2)) - 3) * y1
            + (3 - 2 * ((x2 - x1) / ((x2 - x1) + (x2 - x0)))) * y2
            + (-((x2 - x1) / ((x2 - x1) + (x3 - x2)))) * y3)
        + (1 / (x2 - x1))
          * ((-((x2 - x1) / ((x2 - x1) + (x2 - x0)))) * y0
            + ((x2 - x1) / ((x2 - x1) + (x2 - x0))) * y2)) x1 := by
    exact ((((hδ x1).mul (hδ x1)).mul (hδ x1)).mul_const _ |>.add
      (((hδ x1).mul (hδ x1)).mul_const _) |>.add
      ((hδ x1).mul_const _)).add_const _
  rw [hd.deriv]
  have hz : (x1 - x1) / (x2 - x1) = 0 := by simp
  have hne1 : x2 - x1 ≠ 0 := ne_of_gt hh
  have hne2 : (x2 - x1) + (x2 - x0) ≠ 0 := ne_of_gt hph
  have hne3 : (x1 - x0) + 2 * (x2 - x1) ≠ 0 := by
    intro h
    apply hne2
    linarith
  rw [hz]
  field_simp [hne1, hne2, hne3]
  ring

/-- Derivative of the interior-segment cubic at the segment's right knot
`x2`: it equals the finite-difference tangent `(y3 - y1) / (h + next_h)`. -/
theorem catmullInterior_deriv_right (x0 y0 x1 y1 x2 y2 x3 y3 : ℚ)
    (h01 : x0 ≤ x1) (h12 : x1 < x2) (h23 : x2 ≤ x3) :
    deriv (catmullInterior ⟨x0, y0⟩ ⟨x1, y1⟩ ⟨x2, y2⟩ ⟨x3, y3⟩) x2
      = (y3 - y1) / ((x2 - x1) + (x3 - x2)) := by
  have hh : (0 : ℚ) < x2 - x1 := by linarith
  have hnh : (0 : ℚ) < (x2 - x1) + (x3 - x2) := by linarith
  have hph : (0 : ℚ) < (x2 - x1) + (x2 - x0) := by linarith
  have hδ : ∀ q : ℚ, HasDerivAt (fun q : ℚ => (q - x1) / (x2 - x1))
      (1 / (x2 - x1)) q := by
    intro q
    simpa using ((hasDerivAt_id q).sub_const x1).div_const (x2 - x1)
  have hd : HasDerivAt
      (catmullInterior ⟨x0, y0⟩ ⟨x1, y1⟩ ⟨x2, y2⟩ ⟨x3, y3⟩)
      ((((1 / (x2 - x1)) * ((x2 - x1) / (x2 - x1))
            + ((x2 - x1) / (x2 - x1)) * (1 / (x2 - x1)))
              * ((x2 - x1) / (x2 - x1))
          + (((x2 - x1) / (x2 - x1)) * ((x2 - x1) / (x2 - x1)))
            * (1 / (x2 - x1)))
          * ((-((x2 - x1) / ((x2 - x1) + (x2 - x0)))) * y0
            + (2 - (x2 - x1) / ((x2 - x1) + (x3 - x2))) * y1
            + (-2 + (x2 - x1) / ((x2 - x1) + (x2 - x0))) * y2
            + ((x2 - x1) / ((x2 - x1) + (x3 - x2))) * y3)
        + ((1 / (x2 - x1)) * ((x2 - x1) / (x2 - x1))
            + ((x2 - x1) / (x2 - x1)) * (1 / (x2 - x1)))
          * ((2 * ((x2 - x1) / ((x2 - x1) + (x2 - x0)))) * y0
            + ((x2 - x1) / ((x2 - x1) + (x3 - x2)) - 3) * y1
            + (3 - 2 * ((x2 - x1) / ((x2 - x1) + (x2 - x0)))) * y2
            + (-((x2 - x1) / ((x2 - x1) + (x3 - x2)))) * y3)
        + (1 / (x2 - x1))
          * ((-((x2 - x1) / ((x2 - x1) + (x2 - x0)))) * y0
            + ((x2 - x1) / ((x2 - x1) + (x2 - x0))) * y2)) x2 := by
    exact ((((hδ x2).mul (hδ x2)).mul (hδ x2)).mul_const _ |>.add
      (((hδ x2).mul (hδ x2)).mul_const _) |>.add
      ((hδ x2).mul_const _)).add_const _
  rw [hd.deriv]
  have hone : (x2 - x1) / (x2 - x1) = 1 := div_self (ne_of_gt hh)
  have hne1 : x2 - x1 ≠ 0 := ne_of_gt hh
  have hne2 : (x2 - x1) + (x2 - x0) ≠ 0 := ne_of_gt hph
  have hne3 : (x2 - x1) + (x3 - x2) ≠ 0 := ne_of_gt hnh
  rw [hone]
  field_simp [hne1, hne2, hne3]
  ring

/-- C4 counterexample: on the equally spaced interior points
`(0,0),(1,0),(2,1),(3,0)` the interior-segment cubic of `try_value` has
derivative `1/3` at its left knot `x = 1`, not the claimed finite-difference
estimate `(y2 - y0)/(h0 + h1) = 1/2`. -/
theorem catmull_left_tangent_cex :
    deriv (catmullInterior ⟨0, 0⟩ ⟨1, 0⟩ ⟨2, 1⟩ ⟨3, 0⟩) 1 = 1/3
      ∧ deriv (catmullInterior ⟨0, 0⟩ ⟨1, 0⟩ ⟨2, 1⟩ ⟨3, 0⟩) 1 ≠ 1/2 := by
  have h := catmullInterior_deriv_left 0 0 1 0 2 1 3 0 (by norm_num)
    (by norm_num)
  rw [h]
  norm_num

/-- C4 (amended): for strictly increasing knots, the interior-segment cubic
used by `CatmullRomSpline::try_value` (the `catmullInterior` branch) matches
the finite-difference tangent estimate at the segment's right knot
`x[i+1]`, i.e. `(y[i+2] - y[i])/(h[i] + h[i+1])`; at the segment's left knot
`x[i]` its derivative is `(y[i+1] - y[i-1])/(h[i-1] + 2·h[i])`, which
differs from the claimed `(y[i+1] - y[i-1])/(h[i-1] + h[i])` because the
source computes `prev_h` across two segments. -/
theorem catmull_interior_tangents (x0 y0 x1 y1 x2 y2 x3 y3 : ℚ)
    (h01 : x0 < x1) (h12 : x1 < x2) (h23 : x2 < x3) :
    deriv (catmullInterior ⟨x0, y0⟩ ⟨x1, y1⟩ ⟨x2, y2⟩ ⟨x3, y3⟩) x2
        = (y3 - y1) / ((x2 - x1) + (x3 - x2))
      ∧ deriv (catmullInterior ⟨x0, y0⟩ ⟨x1, y1⟩ ⟨x2, y2⟩ ⟨x3, y3⟩) x1
        = (y2 - y0) / ((x1 - x0) + 2 * (x2 - x1)) :=
  ⟨catmullInterior_deriv_right x0 y0 x1 y1 x2 y2 x3 y3 (le_of_lt h01) h12
      (le_of_lt h23),
    catmullInterior_deriv_left x0 y0 x1 y1 x2 y2 x3 y3 (le_of_lt h01) h12⟩

/-- Witness for `catmull_interior_tangents` at `(0,0),(1,0),(2,1),(3,0)`. -/
theorem catmull_interior_tangents_witness :
    deriv (catmullInterior ⟨0, 0⟩ ⟨1, 0⟩ ⟨2, 1⟩ ⟨3, 0⟩) 2
        = (0 - 0) / ((2 - 1) + (3 - 2))
      ∧ deriv (catmullInterior ⟨0, 0⟩ ⟨1, 0⟩ ⟨2, 1⟩ ⟨3, 0⟩) 1
        = (1 - 0) / ((1 - 0) + 2 * (2 - 1)) :=
  catmull_interior_tangents 0 0 1 0 2 1 3 0 (by norm_num) (by norm_num)
    (by norm_num)

end SplineVerify
